import Mathlib

/-!
Verification of the named sigslot library (src/include/namedsigslot.h).

Embedding conventions.  The library is a header of C++ templates; we embed
its state as explicit records and its operations as pure state-transforming
functions, following the source line by line:

* Raw pointers (the `void*` identities stored beside each `weak_ptr`) become
  `Nat` identifiers drawn from per-world counters and never reused.
* An object whose last external `shared_ptr` was released keeps its record in
  the world with `alive := false`; this models a `weak_ptr` whose `lock()`
  fails.  Releasing a handle runs the custom `shared_ptr` deleter exactly as
  written in the source (run `deleter_` if set, then destroy).
* The `Signature` template argument becomes a `Nat : Nat` tag carried by
  every `Signal` and `Connection`.  `std::dynamic_pointer_cast` succeeds iff
  the tags agree; on disagreement the source immediately dereferences the
  null result, which is undefined behaviour — operations that can reach such
  a dereference return `Option`, with `none` standing for that crash.
* `std::map` and the early-connection `std::map` become association lists
  with first-match lookup (`mapFind`), in-place overwrite (`mapInsert`, the
  semantics of `operator[]`/assignment) and erase of the matching entry
  (`mapErase`).
* Callbacks are opaque labels (`slot : Nat`); an emission returns the trace
  of connection identities it invoked, in order.  Each operation is atomic,
  reflecting that the source takes the owning object's mutex around it; the
  lock-acquisition structure itself is modelled separately (`HubAccess`
  below) for the lock-discipline claim.
-/

namespace NamedSigslot

abbrev SigName := String

/-- Which collection a Connection's `deleter_` lambda erases it from:
`toSignal sid` is the lambda installed by `Signal::ConnectInternal`
(namedsigslot.h lines 168-183), `toEarly n` is the lambda installed by the
parking branch of `SignalHub::Connect` (lines 353-369). -/
inductive ConnDeleter where
  | toSignal (sid : Nat)
  | toEarly (n : SigName)
  deriving DecidableEq

/-- One `Connection<Signature>` object (lines 44-66): the atomic enable flag
and debug names from `ObjectBase`/`NamedObjectBase`/`ConnectionBase`, the
stored callback (`slot_`, as an opaque label), the `Signature` tag, the
current `deleter_`, and whether the last external handle is still held. -/
structure Conn where
  id : Nat
  slot : Nat
  shape : Nat
  cname : SigName
  sigName : SigName
  enabled : Bool
  deleter : Option ConnDeleter
  alive : Bool
  deriving DecidableEq

/-- One `Signal<Signature, Mutex>` object (lines 73-198): name, `Signature`
tag, enable flag, the ordered dispatch list `conns_` (we store the `void*`
identities; weak-pointer liveness is looked up in the world), the
hub-installed `deleter_` (which captures `sig_name`; `none` for a standalone
signal or after `OnFinal`), and external-handle liveness. -/
structure Sig where
  id : Nat
  sname : SigName
  shape : Nat
  enabled : Bool
  conns : List Nat
  deleter : Option SigName
  alive : Bool
  deriving DecidableEq

/-- The whole reachable heap plus one `SignalHub` (lines 237-397): every
connection and signal object ever created, the hub's `signals_` map and
`early_conns_` map, and fresh-identity counters. -/
structure World where
  conns : List Conn
  sigs : List Sig
  signalsMap : List (SigName × Nat)
  earlyConns : List (SigName × List Nat)
  nextConn : Nat
  nextSig : Nat
  deriving DecidableEq

def emptyWorld : World := ⟨[], [], [], [], 0, 0⟩

def mapFind {α : Type} (m : List (SigName × α)) (k : SigName) : Option α :=
  match m with
  | [] => none
  | (k', v) :: rest => if k' = k then some v else mapFind rest k

def mapInsert {α : Type} (m : List (SigName × α)) (k : SigName) (v : α) :
    List (SigName × α) :=
  match m with
  | [] => [(k, v)]
  | (k', v') :: rest =>
      if k' = k then (k, v) :: rest else (k', v') :: mapInsert rest k v

def mapErase {α : Type} (m : List (SigName × α)) (k : SigName) :
    List (SigName × α) :=
  match m with
  | [] => []
  | (k', v') :: rest => if k' = k then rest else (k', v') :: mapErase rest k

/-- Erase the first entry whose stored `void*` equals `cid` — the
`find_if`-then-`erase` pattern of both deleter lambdas (lines 171-176 and
360-367). -/
def listEraseFirst (l : List Nat) (cid : Nat) : List Nat :=
  match l with
  | [] => []
  | x :: xs => if x = cid then xs else x :: listEraseFirst xs cid

def findConn (w : World) (cid : Nat) : Option Conn :=
  w.conns.find? (fun c => c.id = cid)

def findSig (w : World) (sid : Nat) : Option Sig :=
  w.sigs.find? (fun s => s.id = sid)

def updateConn (w : World) (cid : Nat) (f : Conn → Conn) : World :=
  { w with conns := w.conns.map (fun c => if c.id = cid then f c else c) }

def updateSig (w : World) (sid : Nat) (f : Sig → Sig) : World :=
  { w with sigs := w.sigs.map (fun s => if s.id = sid then f s else s) }

/-- Does `weak_ptr::lock()` on this connection succeed? -/
def connAlive (w : World) (cid : Nat) : Bool :=
  match findConn w cid with
  | some c => c.alive
  | none => false

def connEnabled (w : World) (cid : Nat) : Bool :=
  match findConn w cid with
  | some c => c.enabled
  | none => false

def connShape (w : World) (cid : Nat) : Nat :=
  match findConn w cid with
  | some c => c.shape
  | none => 0

def connSlot (w : World) (cid : Nat) : Nat :=
  match findConn w cid with
  | some c => c.slot
  | none => 0

def connDeleter (w : World) (cid : Nat) : Option ConnDeleter :=
  match findConn w cid with
  | some c => c.deleter
  | none => none

/-- The `signals_` lookup pattern of `SignalHub::Connect`/`Emit`: the map
entry for `n`, if present, with its `weak_ptr` successfully locked. -/
def liveSigFor (w : World) (n : SigName) : Option Nat :=
  match mapFind w.signalsMap n with
  | none => none
  | some sid =>
      match findSig w sid with
      | none => none
      | some s => if s.alive then some sid else none

/-- Construction of a standalone `Signal<Signature>` (default-initialised
members: enabled, empty dispatch list, no `deleter_`). -/
def newSignal (w : World) (shape : Nat) (n : SigName) : World × Nat :=
  let sid := w.nextSig
  ({ w with
      sigs := w.sigs ++
        [{ id := sid, sname := n, shape := shape, enabled := true,
           conns := [], deleter := none, alive := true }],
      nextSig := sid + 1 }, sid)

/-- The iterator walk of `Signal::operator()` (lines 104-120): for each entry
lock the weak pointer; if alive keep it and invoke it (the invocation itself,
`Connection::operator()` lines 54-60, fires only when the connection is
enabled); if dead erase the entry in place.  Returns the surviving list and
the trace of invoked connections in order. -/
def signalEmitWalk (w : World) : List Nat → List Nat × List Nat
  | [] => ([], [])
  | cid :: rest =>
      let r := signalEmitWalk w rest
      if connAlive w cid then
        (cid :: r.1, if connEnabled w cid then cid :: r.2 else r.2)
      else r

/-- `Signal::operator()` / `Signal::Emit` (lines 98-126): return immediately
when the signal is disabled, otherwise walk the dispatch list once. -/
def signalEmit (w : World) (sid : Nat) : World × List Nat :=
  match findSig w sid with
  | none => (w, [])
  | some s =>
      if s.enabled then
        let r := signalEmitWalk w s.conns
        (updateSig w sid (fun s => { s with conns := r.1 }), r.2)
      else (w, [])

/-- `Signal::Connect` plus `Signal::ConnectInternal` (lines 128-143 and
161-197): allocate a `Connection<Signature>` carrying the callback, the slot
name and the signal's name; append its identity to the dispatch list; install
the erase-from-this-signal deleter.  Returns the new connection's identity
(the owning handle given to the caller). -/
def signalConnect (w : World) (sid : Nat) (slot : Nat) (nm : SigName) :
    World × Nat :=
  match findSig w sid with
  | none => (w, 0)
  | some s =>
      let cid := w.nextConn
      let c : Conn :=
        { id := cid, slot := slot, shape := s.shape, cname := nm,
          sigName := s.sname, enabled := true,
          deleter := some (ConnDeleter.toSignal sid), alive := true }
      let w1 : World := { w with conns := w.conns ++ [c], nextConn := cid + 1 }
      (updateSig w1 sid (fun s => { s with conns := s.conns ++ [cid] }), cid)

/-- Body of the connection `deleter_` lambdas (lines 168-183 installed by
`ConnectInternal`, lines 353-369 installed by the parking branch of
`SignalHub::Connect`): erase the entry whose stored `void*` is this
connection from the owning collection. -/
def runConnDeleter (w : World) (cid : Nat) (d : ConnDeleter) : World :=
  match d with
  | ConnDeleter.toSignal sid =>
      updateSig w sid (fun s => { s with conns := listEraseFirst s.conns cid })
  | ConnDeleter.toEarly n =>
      match mapFind w.earlyConns n with
      | none => w
      | some l =>
          { w with earlyConns := mapInsert w.earlyConns n (listEraseFirst l cid) }

/-- Release of the last external handle on a connection: the custom
`shared_ptr` deleter of lines 135-140 / 371-376 runs `deleter_` (when set)
with the connection's own raw pointer, then `delete p` reclaims the object.
Returns the list of arguments the detach callback was invoked with. -/
def releaseConn (w : World) (cid : Nat) : World × List Nat :=
  match findConn w cid with
  | none => (w, [])
  | some c =>
      if c.alive then
        let r : World × List Nat :=
          match c.deleter with
          | some d => (runConnDeleter w cid d, [cid])
          | none => (w, [])
        (updateConn r.1 cid (fun c => { c with alive := false, deleter := none }), r.2)
      else (w, [])

/-- The loop of `Signal::~Signal` (lines 86-97) and of the early-connection
half of `SignalHub::~SignalHub` (lines 261-272): for each listed connection
whose weak pointer still locks, call `OnFinal`, i.e. clear its `deleter_`. -/
def clearConnDeleters (w : World) (l : List Nat) : World :=
  l.foldl
    (fun w cid =>
      match findConn w cid with
      | some c =>
          if c.alive then updateConn w cid (fun c => { c with deleter := none })
          else w
      | none => w)
    w

/-- Release of the last external handle on a signal: the custom deleter of
lines 316-322 first runs the hub-installed `deleter_` (lines 302-314), which
erases the hub's map entry for the captured name only when that entry still
stores this very instance; then `delete p` runs `Signal::~Signal`, clearing
the detach callback of every still-alive bound connection before the storage
goes away. -/
def releaseSignal (w : World) (sid : Nat) : World :=
  match findSig w sid with
  | none => w
  | some s =>
      if s.alive then
        let w1 : World :=
          match s.deleter with
          | some n =>
              (match mapFind w.signalsMap n with
               | some sid' =>
                   if sid' = sid then { w with signalsMap := mapErase w.signalsMap n }
                   else w
               | none => w)
          | none => w
        let w2 := clearConnDeleters w1 s.conns
        updateSig w2 sid (fun s => { s with alive := false, deleter := none })
      else w

/-- Retarget the deleters of migrated early connections: each
`ConnectInternal` call of the migration loop (line 296) replaces the parked
connection's early-list deleter with the new signal's erase lambda. -/
def retargetDeleters (w : World) (l : List Nat) (sid : Nat) : World :=
  l.foldl
    (fun w cid =>
      updateConn w cid (fun c => { c with deleter := some (ConnDeleter.toSignal sid) }))
    w

/-- `SignalHub::AddSignal<Signature>` (lines 280-327): create the signal;
if `early_conns_` holds a parked list for this name, migrate every entry
whose weak pointer still locks into the new signal's dispatch list in parked
order (each via `ConnectInternal`, which also retargets its deleter), then
erase the parked entry (erasing an absent key is the identity, matching the
source's guarded erase); install the hub deleter capturing the name; finally
store the signal in `signals_[name]`, overwriting any prior entry.  A parked
still-alive connection whose `Signature` differs makes
`dynamic_pointer_cast` return null and `ConnectInternal` dereference it —
that crash is `none`. -/
def hubAddSignal (w : World) (shape : Nat) (n : SigName) :
    Option (World × Nat) :=
  let sid := w.nextSig
  let parked := (mapFind w.earlyConns n).getD []
  let aliveParked := parked.filter (fun cid => connAlive w cid)
  if aliveParked.all (fun cid => connShape w cid = shape) then
    let s : Sig :=
      { id := sid, sname := n, shape := shape, enabled := true,
        conns := aliveParked, deleter := some n, alive := true }
    let w1 := retargetDeleters w aliveParked sid
    let w2 : World := { w1 with earlyConns := mapErase w1.earlyConns n }
    some ({ w2 with
              sigs := w2.sigs ++ [s],
              nextSig := sid + 1,
              signalsMap := mapInsert w2.signalsMap n sid }, sid)
  else none

/-- The parking branch of `SignalHub::Connect` (lines 348-378): no live
signal is registered, so allocate the connection, install the
erase-from-`early_conns_` deleter, and append it to the parked list for the
name (`operator[]` default-constructs an empty list). -/
def hubParkConnect (w : World) (shape : Nat) (n : SigName) (slot : Nat)
    (nm : SigName) : World × Nat :=
  let cid := w.nextConn
  let c : Conn :=
    { id := cid, slot := slot, shape := shape, cname := nm, sigName := n,
      enabled := true, deleter := some (ConnDeleter.toEarly n), alive := true }
  let l := (mapFind w.earlyConns n).getD []
  ({ w with
      conns := w.conns ++ [c],
      nextConn := cid + 1,
      earlyConns := mapInsert w.earlyConns n (l ++ [cid]) }, cid)

/-- `SignalHub::Connect<Signature>` (lines 334-379): if the map holds an
entry for the name whose weak pointer locks, `dynamic_pointer_cast` the
signal to `Signal<Signature>` and delegate to its `Connect` — a `Signature`
mismatch makes the cast return null and the immediate `->Connect` dereference
it (`none`); otherwise park the connection. -/
def hubConnect (w : World) (shape : Nat) (n : SigName) (slot : Nat)
    (nm : SigName) : Option (World × Nat) :=
  match mapFind w.signalsMap n with
  | some sid =>
      (match findSig w sid with
       | some s =>
           if s.alive then
             if s.shape = shape then some (signalConnect w sid slot nm)
             else none
           else some (hubParkConnect w shape n slot nm)
       | none => some (hubParkConnect w shape n slot nm))
  | none => some (hubParkConnect w shape n slot nm)

/-- `SignalHub::Emit<Signature>` (lines 381-396): look the name up under the
hub lock; a missing entry or a dead weak pointer is a silent no-op; a live
signal is `dynamic_pointer_cast` to `Signal<Signature>` and invoked — a
`Signature` mismatch dereferences the null cast result (`none`). -/
def hubEmit (w : World) (shape : Nat) (n : SigName) :
    Option (World × List Nat) :=
  match mapFind w.signalsMap n with
  | none => some (w, [])
  | some sid =>
      match findSig w sid with
      | none => some (w, [])
      | some s =>
          if s.alive then
            if s.shape = shape then some (signalEmit w sid) else none
          else some (w, [])

/-- The signal half of `SignalHub::~SignalHub` (lines 250-260): for every
map entry whose weak pointer locks, call `OnFinal`, clearing the signal's
hub deleter. -/
def clearSigDeleters (w : World) (m : List (SigName × Nat)) : World :=
  m.foldl
    (fun w p =>
      match findSig w p.2 with
      | some s =>
          if s.alive then updateSig w p.2 (fun s => { s with deleter := none })
          else w
      | none => w)
    w

/-- The early-connection half of `SignalHub::~SignalHub` (lines 261-272). -/
def clearEarlyDeleters (w : World) (m : List (SigName × List Nat)) : World :=
  m.foldl (fun w p => clearConnDeleters w p.2) w

/-- `SignalHub::~SignalHub` (lines 248-274): clear the deleters of all
still-reachable signals, clear `signals_`, clear the deleters of all parked
connections, clear `early_conns_`. -/
def hubTeardown (w : World) : World :=
  let w1 := clearSigDeleters w w.signalsMap
  let w2 : World := { w1 with signalsMap := [] }
  let w3 := clearEarlyDeleters w2 w2.earlyConns
  { w3 with earlyConns := [] }

/-- `ObjectBase::Enable` on a connection (line 22). -/
def connEnable (w : World) (cid : Nat) (b : Bool) : World :=
  updateConn w cid (fun c => { c with enabled := b })

/-- `ObjectBase::Enable` on a signal (line 22). -/
def sigEnable (w : World) (sid : Nat) (b : Bool) : World :=
  updateSig w sid (fun s => { s with enabled := b })

/-- Iterated `SignalHub::Emit`, discarding traces (for repeatability). -/
def emitRepeat (shape : Nat) (n : SigName) : Nat → World → Option World
  | 0, w => some w
  | Nat.succ k, w =>
      match hubEmit w shape n with
      | some r => emitRepeat shape n k r.1
      | none => none

/-- The identities handed out by `k` consecutive allocations starting at
counter value `s`. -/
def idsFrom : Nat → Nat → List Nat
  | _, 0 => []
  | s, Nat.succ k => s :: idsFrom (s + 1) k

/-- A sequence of `Signal::Connect` calls on one signal, left to right. -/
def connectMany (w : World) (sid : Nat) (slots : List Nat) : World :=
  slots.foldl (fun w sl => (signalConnect w sid sl "").1) w

/-- Number of references to `cid` held by dispatch lists of live signals. -/
def sigOcc (s : Sig) (cid : Nat) : Nat :=
  if s.alive then s.conns.count cid else 0

def sigSum (l : List Sig) (cid : Nat) : Nat :=
  (l.map (fun s => sigOcc s cid)).sum

def occSig (w : World) (cid : Nat) : Nat :=
  sigSum w.sigs cid

def earlySum (m : List (SigName × List Nat)) (cid : Nat) : Nat :=
  (m.map (fun p => p.2.count cid)).sum

/-- Number of references to `cid` held by parked early-connection lists. -/
def occEarly (w : World) (cid : Nat) : Nat :=
  earlySum w.earlyConns cid

def occ (w : World) (cid : Nat) : Nat :=
  occSig w cid + occEarly w cid

/-- The single-reference invariant: every connection identity is referenced
by at most one place among all live dispatch lists and all parked lists,
identities not yet handed out are referenced nowhere, and signal identities
are unique and below the counter. -/
def Inv (w : World) : Prop :=
  (∀ cid, occ w cid ≤ 1) ∧
  (∀ cid, w.nextConn ≤ cid → occ w cid = 0) ∧
  (w.sigs.map Sig.id).Nodup ∧
  (∀ s ∈ w.sigs, s.id < w.nextSig)

/-- The hub operations observable through the `SignalHub` interface, as one
step relation (`none` = the undefined-behaviour dereference). -/
inductive Op where
  | addSignal (shape : Nat) (n : SigName)
  | connect (shape : Nat) (n : SigName) (slot : Nat) (nm : SigName)
  | emit (shape : Nat) (n : SigName)
  | releaseC (cid : Nat)
  | releaseS (sid : Nat)
  | enableC (cid : Nat) (b : Bool)
  | enableS (sid : Nat) (b : Bool)
  | teardown

def step (op : Op) (w : World) : Option World :=
  match op with
  | Op.addSignal sh n => (hubAddSignal w sh n).map (fun r => r.1)
  | Op.connect sh n sl nm => (hubConnect w sh n sl nm).map (fun r => r.1)
  | Op.emit sh n => (hubEmit w sh n).map (fun r => r.1)
  | Op.releaseC cid => some (releaseConn w cid).1
  | Op.releaseS sid => some (releaseSignal w sid)
  | Op.enableC cid b => some (connEnable w cid b)
  | Op.enableS sid b => some (sigEnable w sid b)
  | Op.teardown => some (hubTeardown w)

/-- Which hub-owned container a statement of `SignalHub` touches. -/
inductive HubDatum where
  | sigMap
  | earlyMap
  deriving DecidableEq

/-- One container access of a `SignalHub` member function, with whether the
hub's mutex is held at that program point. -/
structure HubAccess where
  datum : HubDatum
  underLock : Bool
  deriving DecidableEq

/-- Container accesses of `SignalHub::AddSignal` in program order: the
`early_conns_.find` at line 286 and the `early_conns_.erase` at line 299 run
before the `lock_guard` at line 324; only the `signals_` insertion at line
325 is under the hub lock. -/
def addSignalAccesses : List HubAccess :=
  [⟨HubDatum.earlyMap, false⟩, ⟨HubDatum.earlyMap, false⟩,
   ⟨HubDatum.sigMap, true⟩]

/-- Container accesses of `SignalHub::Connect`: the `lock_guard` at line 337
opens the function, so the `signals_.find` (line 338) and the
`early_conns_` update (line 377) are both under the lock. -/
def hubConnectAccesses : List HubAccess :=
  [⟨HubDatum.sigMap, true⟩, ⟨HubDatum.earlyMap, true⟩]

/-- Container access of `SignalHub::Emit`'s lookup step: the `signals_.find`
at line 387 sits inside the `lock_guard` block of lines 385-394. -/
def hubEmitLookupAccesses : List HubAccess :=
  [⟨HubDatum.sigMap, true⟩]

/-- Container accesses of `SignalHub::~SignalHub`: the `lock_guard` at line
250 covers the walk and clear of `signals_` (lines 251-260) and of
`early_conns_` (lines 261-273). -/
def hubTeardownAccesses : List HubAccess :=
  [⟨HubDatum.sigMap, true⟩, ⟨HubDatum.earlyMap, true⟩]

/-- An operation respects the hub-lock discipline when every one of its
container accesses happens with the hub mutex held. -/
def lockDisciplined (l : List HubAccess) : Bool :=
  l.all (fun a => a.underLock)

/-! Structural facts about the world updaters. -/

theorem updateConn_sigs (w : World) (cid : Nat) (f : Conn → Conn) :
    (updateConn w cid f).sigs = w.sigs := rfl

theorem updateConn_signalsMap (w : World) (cid : Nat) (f : Conn → Conn) :
    (updateConn w cid f).signalsMap = w.signalsMap := rfl

theorem updateConn_earlyConns (w : World) (cid : Nat) (f : Conn → Conn) :
    (updateConn w cid f).earlyConns = w.earlyConns := rfl

theorem updateConn_nextConn (w : World) (cid : Nat) (f : Conn → Conn) :
    (updateConn w cid f).nextConn = w.nextConn := rfl

theorem updateConn_nextSig (w : World) (cid : Nat) (f : Conn → Conn) :
    (updateConn w cid f).nextSig = w.nextSig := rfl

theorem updateSig_conns (w : World) (sid : Nat) (f : Sig → Sig) :
    (updateSig w sid f).conns = w.conns := rfl

theorem updateSig_signalsMap (w : World) (sid : Nat) (f : Sig → Sig) :
    (updateSig w sid f).signalsMap = w.signalsMap := rfl

theorem updateSig_earlyConns (w : World) (sid : Nat) (f : Sig → Sig) :
    (updateSig w sid f).earlyConns = w.earlyConns := rfl

theorem updateSig_nextConn (w : World) (sid : Nat) (f : Sig → Sig) :
    (updateSig w sid f).nextConn = w.nextConn := rfl

theorem updateSig_nextSig (w : World) (sid : Nat) (f : Sig → Sig) :
    (updateSig w sid f).nextSig = w.nextSig := rfl

theorem findConn_updateConn (w : World) (cid cid' : Nat) (f : Conn → Conn)
    (hid : ∀ c, (f c).id = c.id) :
    findConn (updateConn w cid f) cid' =
      (findConn w cid').map (fun c => if c.id = cid then f c else c) := by
  unfold findConn updateConn
  rw [List.find?_map]
  have hp : ((fun c => decide (c.id = cid')) ∘ fun c => if c.id = cid then f c else c)
      = fun c => decide (c.id = cid') := by
    funext c
    by_cases h : c.id = cid
    · simp [Function.comp, h, hid]
    · simp [Function.comp, h]
  rw [hp]

theorem findSig_updateSig (w : World) (sid sid' : Nat) (f : Sig → Sig)
    (hid : ∀ s, (f s).id = s.id) :
    findSig (updateSig w sid f) sid' =
      (findSig w sid').map (fun s => if s.id = sid then f s else s) := by
  unfold findSig updateSig
  rw [List.find?_map]
  have hp : ((fun s => decide (s.id = sid')) ∘ fun s => if s.id = sid then f s else s)
      = fun s => decide (s.id = sid') := by
    funext s
    by_cases h : s.id = sid
    · simp [Function.comp, h, hid]
    · simp [Function.comp, h]
  rw [hp]

theorem connAlive_updateConn (w : World) (cid cid' : Nat) (f : Conn → Conn)
    (hid : ∀ c, (f c).id = c.id) (hal : ∀ c, (f c).alive = c.alive) :
    connAlive (updateConn w cid f) cid' = connAlive w cid' := by
  unfold connAlive
  rw [findConn_updateConn w cid cid' f hid]
  cases h : findConn w cid' with
  | none => rfl
  | some c =>
      by_cases hc : c.id = cid
      · simp [hc, hal]
      · simp [hc]

theorem connEnabled_updateConn (w : World) (cid cid' : Nat) (f : Conn → Conn)
    (hid : ∀ c, (f c).id = c.id) (hen : ∀ c, (f c).enabled = c.enabled) :
    connEnabled (updateConn w cid f) cid' = connEnabled w cid' := by
  unfold connEnabled
  rw [findConn_updateConn w cid cid' f hid]
  cases h : findConn w cid' with
  | none => rfl
  | some c =>
      by_cases hc : c.id = cid
      · simp [hc, hen]
      · simp [hc]

theorem connShape_updateConn (w : World) (cid cid' : Nat) (f : Conn → Conn)
    (hid : ∀ c, (f c).id = c.id) (hsh : ∀ c, (f c).shape = c.shape) :
    connShape (updateConn w cid f) cid' = connShape w cid' := by
  unfold connShape
  rw [findConn_updateConn w cid cid' f hid]
  cases h : findConn w cid' with
  | none => rfl
  | some c =>
      by_cases hc : c.id = cid
      · simp [hc, hsh]
      · simp [hc]

theorem connAlive_updateSig (w : World) (sid : Nat) (f : Sig → Sig)
    (cid : Nat) : connAlive (updateSig w sid f) cid = connAlive w cid := rfl

theorem connEnabled_updateSig (w : World) (sid : Nat) (f : Sig → Sig)
    (cid : Nat) : connEnabled (updateSig w sid f) cid = connEnabled w cid := rfl

/-! Association-list map lemmas. -/

theorem mapFind_mapInsert_self {α : Type} (m : List (SigName × α)) (k : SigName)
    (v : α) : mapFind (mapInsert m k v) k = some v := by
  induction m with
  | nil => simp [mapInsert, mapFind]
  | cons p rest ih =>
      by_cases h : p.1 = k
      · simp [mapInsert, h, mapFind]
      · simpa [mapInsert, h, mapFind] using ih

theorem mapFind_mapInsert_ne {α : Type} (m : List (SigName × α)) (k k' : SigName)
    (v : α) (h : k ≠ k') : mapFind (mapInsert m k v) k' = mapFind m k' := by
  induction m with
  | nil => simp [mapInsert, mapFind, h]
  | cons p rest ih =>
      by_cases hp : p.1 = k
      · simp [mapInsert, hp, mapFind, h]
      · simp only [mapInsert, hp, if_neg hp, mapFind]
        by_cases hp' : p.1 = k'
        · simp [hp']
        · simpa [hp'] using ih

theorem mapFind_mapErase_ne {α : Type} (m : List (SigName × α)) (k k' : SigName)
    (h : k ≠ k') : mapFind (mapErase m k) k' = mapFind m k' := by
  induction m with
  | nil => rfl
  | cons p rest ih =>
      by_cases hp : p.1 = k
      · have hp' : p.1 ≠ k' := by
          rw [hp]
          exact h
        simp [mapErase, hp, mapFind, hp', h]
      · simp only [mapErase, hp, if_neg hp, mapFind]
        by_cases hp' : p.1 = k'
        · simp [hp']
        · simpa [hp'] using ih

theorem mapErase_not_found {α : Type} (m : List (SigName × α)) (k : SigName)
    (h : mapFind m k = none) : mapErase m k = m := by
  induction m with
  | nil => rfl
  | cons p rest ih =>
      by_cases hp : p.1 = k
      · simp [mapFind, hp] at h
      · simp only [mapFind, hp, if_neg hp] at h
        simp [mapErase, hp, ih h]

theorem findConn_id (w : World) (cid : Nat) (c : Conn)
    (h : findConn w cid = some c) : c.id = cid := by
  have := List.find?_some h
  simpa using this

theorem findSig_id (w : World) (sid : Nat) (s : Sig)
    (h : findSig w sid = some s) : s.id = sid := by
  have := List.find?_some h
  simpa using this

theorem findSig_mem (w : World) (sid : Nat) (s : Sig)
    (h : findSig w sid = some s) : s ∈ w.sigs :=
  List.mem_of_find?_eq_some h

/-! The emission walk: invoked = alive and enabled, kept = alive. -/

theorem signalEmitWalk_trace (w : World) (l : List Nat) :
    (signalEmitWalk w l).2 =
      l.filter (fun cid => connAlive w cid && connEnabled w cid) := by
  induction l with
  | nil => rfl
  | cons cid rest ih =>
      simp only [signalEmitWalk, List.filter_cons]
      by_cases ha : connAlive w cid
      · by_cases he : connEnabled w cid
        · simp [ha, he, ih]
        · simp [ha, he, ih]
      · simp [ha, ih]

theorem signalEmitWalk_keep (w : World) (l : List Nat) :
    (signalEmitWalk w l).1 = l.filter (fun cid => connAlive w cid) := by
  induction l with
  | nil => rfl
  | cons cid rest ih =>
      simp only [signalEmitWalk, List.filter_cons]
      by_cases ha : connAlive w cid
      · simp [ha, ih]
      · simp [ha, ih]

theorem signalEmitWalk_trace_alive (w : World) (l : List Nat) (cid : Nat)
    (h : cid ∈ (signalEmitWalk w l).2) : connAlive w cid = true := by
  rw [signalEmitWalk_trace] at h
  have := (List.mem_filter.mp h).2
  exact (Bool.and_eq_true_iff.mp this).1

/-- When no live signal is registered under a name, `SignalHub::Emit` is a
silent no-op: it returns without invoking anything or touching state. -/
theorem hubEmit_no_live (w : World) (n : SigName) (shape : Nat)
    (h : liveSigFor w n = none) : hubEmit w shape n = some (w, []) := by
  unfold liveSigFor at h
  unfold hubEmit
  cases hm : mapFind w.signalsMap n with
  | none => rfl
  | some sid =>
      rw [hm] at h
      simp only [] at h ⊢
      cases hs : findSig w sid with
      | none => simp [hs]
      | some s =>
          rw [hs] at h
          simp only [] at h
          by_cases ha : s.alive = true
          · simp [ha] at h
          · simp [hs, ha]

/-- C6: for every SignalHub, Emit on a name with no registered Signal, or
whose registered Signal is no longer alive, is a silent no-op: it invokes no
callback, changes no observable hub state, never throws (no crash outcome),
and is repeatable any number of times with the same outcome. -/
theorem C6_emit_unregistered_noop (w : World) (n : SigName) (shape : Nat)
    (h : liveSigFor w n = none) :
    hubEmit w shape n = some (w, []) ∧
    ∀ k : Nat, emitRepeat shape n k w = some w := by
  refine ⟨hubEmit_no_live w n shape h, ?_⟩
  intro k
  induction k with
  | zero => rfl
  | succ k ih => simp [emitRepeat, hubEmit_no_live w n shape h, ih]

theorem C6_emit_unregistered_noop_witness :
    hubEmit emptyWorld 3 "tick" = some (emptyWorld, []) :=
  (C6_emit_unregistered_noop emptyWorld "tick" 3 (by decide)).1

/-- C7: for every Signal with any set of connections, Emit while the Signal
is disabled invokes no callback (and leaves the world untouched) regardless
of each Connection's individual enabled state; when the Signal is enabled a
disabled Connection is silently skipped while the other live, enabled ones
still fire; and toggling the Signal's flag leaves every Connection record —
in particular every per-connection enabled flag — exactly as it was, so
re-enabling restores the per-connection states unchanged. -/
theorem C7_disable_cascade (w : World) (sid : Nat) (s : Sig)
    (hs : findSig w sid = some s) :
    (s.enabled = false → signalEmit w sid = (w, [])) ∧
    (s.enabled = true →
      (signalEmit w sid).2 =
        s.conns.filter (fun cid => connAlive w cid && connEnabled w cid)) ∧
    (∀ b, (sigEnable w sid b).conns = w.conns) ∧
    (∀ b, ∃ s', findSig (sigEnable w sid b) sid = some s' ∧ s'.enabled = b ∧
        s'.conns = s.conns) := by
  refine ⟨?_, ?_, fun b => rfl, ?_⟩
  · intro hdis
    unfold signalEmit
    rw [hs]
    simp [hdis]
  · intro hen
    unfold signalEmit
    rw [hs]
    simp [hen, signalEmitWalk_trace]
  · intro b
    refine ⟨{ s with enabled := b }, ?_, rfl, rfl⟩
    unfold sigEnable
    have hupd := findSig_updateSig w sid sid
      (fun s => { s with enabled := b }) (fun s => rfl)
    rw [hupd, hs]
    simp [findSig_id w sid s hs]

theorem C7_disable_cascade_witness :
    (signalEmit (signalConnect (connEnable
        (signalConnect (newSignal emptyWorld 0 "s").1 0 5 "").1 0 false)
        0 6 "").1 0).2 = [1] := by
  have h := (C7_disable_cascade
      (signalConnect (connEnable
        (signalConnect (newSignal emptyWorld 0 "s").1 0 5 "").1 0 false)
        0 6 "").1
      0 ⟨0, "s", 0, true, [0, 1], none, true⟩ (by decide)).2.1 (by decide)
  rw [h]
  decide

/-- C1: the claim is false of the code as written.  `SignalHub::Connect`
(line 344) and `SignalHub::Emit` (line 395) perform
`std::dynamic_pointer_cast<Signal<Signature, Mutex>>` on the live signal and
immediately dereference the result; when the caller's `Signature` differs
from the live signal's, the checked cast yields a null pointer and the
dereference is undefined behaviour (a crash), not a reported, catchable
error.  In the embedding that dereference is the `none` outcome: with a live
`Signal<shape 0>` registered under "s", an `Emit` or `Connect` at shape 1
crashes. -/
theorem C1_shape_mismatch_dereferences_null :
    (hubAddSignal emptyWorld 0 "s").isSome = true ∧
    ((hubAddSignal emptyWorld 0 "s").bind (fun p => hubEmit p.1 1 "s")) = none ∧
    ((hubAddSignal emptyWorld 0 "s").bind (fun p => hubConnect p.1 1 "s" 7 "")) =
      none := by
  decide

/-- C8: the claim is false of the code as written.  `SignalHub::Connect`,
`SignalHub::Emit`'s lookup step and `SignalHub::~SignalHub` do hold the
hub's re-entrant mutex around every access to `signals_`/`early_conns_`,
but `SignalHub::AddSignal` reads and erases `early_conns_` (lines 286-300,
the whole check-early-list-then-migrate sequence) before its `lock_guard`
at line 324; only the final `signals_` insertion is under the lock. -/
theorem C8_addSignal_migration_unlocked :
    lockDisciplined addSignalAccesses = false ∧
    lockDisciplined hubConnectAccesses = true ∧
    lockDisciplined hubEmitLookupAccesses = true ∧
    lockDisciplined hubTeardownAccesses = true := by
  decide

theorem findConn_eq_of_conns (w w' : World) (h : w'.conns = w.conns)
    (cid : Nat) : findConn w' cid = findConn w cid := by
  unfold findConn
  rw [h]

theorem findSig_eq_of_sigs (w w' : World) (h : w'.sigs = w.sigs)
    (sid : Nat) : findSig w' sid = findSig w sid := by
  unfold findSig
  rw [h]

theorem runConnDeleter_conns (w : World) (cid : Nat) (d : ConnDeleter) :
    (runConnDeleter w cid d).conns = w.conns := by
  cases d with
  | toSignal sid => rfl
  | toEarly n =>
      unfold runConnDeleter
      simp only []
      cases mapFind w.earlyConns n <;> rfl

theorem clearConnDeleters_cons (w : World) (x : Nat) (xs : List Nat) :
    clearConnDeleters w (x :: xs) =
      clearConnDeleters
        (match findConn w x with
         | some c =>
             if c.alive then updateConn w x (fun c => { c with deleter := none })
             else w
         | none => w) xs := rfl

theorem clearConnDeleters_proj {β : Type} (proj : World → β)
    (hstep : ∀ (w : World) (cid : Nat),
      proj (updateConn w cid (fun c => { c with deleter := none })) = proj w) :
    ∀ (l : List Nat) (w : World), proj (clearConnDeleters w l) = proj w
  | [], _ => rfl
  | x :: xs, w => by
      rw [clearConnDeleters_cons]
      cases h : findConn w x with
      | none => exact clearConnDeleters_proj proj hstep xs w
      | some c =>
          simp only []
          by_cases ha : c.alive
          · rw [if_pos ha, clearConnDeleters_proj proj hstep xs _, hstep]
          · rw [if_neg ha]
            exact clearConnDeleters_proj proj hstep xs w

theorem clearConnDeleters_sigs (l : List Nat) (w : World) :
    (clearConnDeleters w l).sigs = w.sigs :=
  clearConnDeleters_proj World.sigs (fun _ _ => rfl) l w

theorem clearConnDeleters_signalsMap (l : List Nat) (w : World) :
    (clearConnDeleters w l).signalsMap = w.signalsMap :=
  clearConnDeleters_proj World.signalsMap (fun _ _ => rfl) l w

theorem clearConnDeleters_earlyConns (l : List Nat) (w : World) :
    (clearConnDeleters w l).earlyConns = w.earlyConns :=
  clearConnDeleters_proj World.earlyConns (fun _ _ => rfl) l w

theorem connAlive_clearConnDeleters (l : List Nat) (w : World) (a : Nat) :
    connAlive (clearConnDeleters w l) a = connAlive w a :=
  clearConnDeleters_proj (fun w => connAlive w a)
    (fun w cid =>
      connAlive_updateConn w cid a (fun c => { c with deleter := none })
        (fun _ => rfl) (fun _ => rfl)) l w

theorem clearConnDeleters_not_mem : ∀ (l : List Nat) (w : World) (cid : Nat),
    cid ∉ l → findConn (clearConnDeleters w l) cid = findConn w cid
  | [], _, _, _ => rfl
  | x :: xs, w, cid, h => by
      have hx : cid ≠ x := fun he => h (he ▸ List.mem_cons_self x xs)
      have hxs : cid ∉ xs := fun he => h (List.mem_cons_of_mem x he)
      rw [clearConnDeleters_cons]
      cases hf : findConn w x with
      | none => exact clearConnDeleters_not_mem xs w cid hxs
      | some c =>
          simp only []
          by_cases ha : c.alive
          · rw [if_pos ha, clearConnDeleters_not_mem xs _ cid hxs]
            rw [findConn_updateConn w x cid
              (fun c => { c with deleter := none }) (fun _ => rfl)]
            cases hg : findConn w cid with
            | none => rfl
            | some c' =>
                have hi : c'.id = cid := findConn_id w cid c' hg
                simp [hi, hx]
          · rw [if_neg ha]
            exact clearConnDeleters_not_mem xs w cid hxs

theorem clearConnDeleters_mem : ∀ (l : List Nat) (w : World) (cid : Nat)
    (c : Conn), cid ∈ l → findConn w cid = some c → c.alive = true →
    findConn (clearConnDeleters w l) cid = some { c with deleter := none }
  | [], _, _, _, h, _, _ => absurd h (List.not_mem_nil _)
  | x :: xs, w, cid, c, h, hf, ha => by
      rw [clearConnDeleters_cons]
      by_cases hx : cid = x
      · subst hx
        rw [hf]
        simp only []
        rw [if_pos ha]
        have hf1 : findConn (updateConn w cid (fun c => { c with deleter := none }))
            cid = some { c with deleter := none } := by
          rw [findConn_updateConn w cid cid
            (fun c => { c with deleter := none }) (fun _ => rfl), hf]
          simp [findConn_id w cid c hf]
        by_cases hxs : cid ∈ xs
        · exact clearConnDeleters_mem xs _ cid { c with deleter := none } hxs hf1 ha
        · rw [clearConnDeleters_not_mem xs _ cid hxs, hf1]
      · have hxs : cid ∈ xs := by
          cases List.mem_cons.mp h with
          | inl h' => exact absurd h' hx
          | inr h' => exact h'
        cases hfx : findConn w x with
        | none => exact clearConnDeleters_mem xs w cid c hxs hf ha
        | some cx =>
            simp only []
            by_cases hax : cx.alive
            · rw [if_pos hax]
              have hf1 : findConn (updateConn w x (fun c => { c with deleter := none }))
                  cid = some c := by
                rw [findConn_updateConn w x cid
                  (fun c => { c with deleter := none }) (fun _ => rfl), hf]
                have hi : c.id = cid := findConn_id w cid c hf
                simp [hi, hx]
              exact clearConnDeleters_mem xs _ cid c hxs hf1 ha
            · rw [if_neg hax]
              exact clearConnDeleters_mem xs w cid c hxs hf ha

theorem signalEmit_trace_alive (w : World) (sid : Nat) (cid : Nat)
    (h : cid ∈ (signalEmit w sid).2) : connAlive w cid = true := by
  unfold signalEmit at h
  cases hs : findSig w sid with
  | none =>
      rw [hs] at h
      simp at h
  | some s =>
      rw [hs] at h
      simp only [] at h
      by_cases he : s.enabled = true
      · simp only [he, if_pos he] at h
        exact signalEmitWalk_trace_alive w s.conns cid h
      · simp [he] at h

theorem hubEmit_trace_alive (w : World) (shape : Nat) (n : SigName)
    (w2 : World) (tr : List Nat) (cid : Nat)
    (h : hubEmit w shape n = some (w2, tr)) (hc : cid ∈ tr) :
    connAlive w cid = true := by
  unfold hubEmit at h
  cases hm : mapFind w.signalsMap n with
  | none =>
      rw [hm] at h
      simp only [Option.some.injEq] at h
      have h2 : tr = [] := (congrArg Prod.snd h).symm
      rw [h2] at hc
      exact absurd hc (List.not_mem_nil cid)
  | some sid =>
      rw [hm] at h
      simp only [] at h
      cases hs : findSig w sid with
      | none =>
          rw [hs] at h
          simp only [Option.some.injEq] at h
          have h2 : tr = [] := (congrArg Prod.snd h).symm
          rw [h2] at hc
          exact absurd hc (List.not_mem_nil cid)
      | some s =>
          rw [hs] at h
          simp only [] at h
          by_cases ha : s.alive = true
          · by_cases hsh : s.shape = shape
            · rw [if_pos ha, if_pos hsh] at h
              simp only [Option.some.injEq] at h
              have h2 : tr = (signalEmit w sid).2 := (congrArg Prod.snd h).symm
              rw [h2] at hc
              exact signalEmit_trace_alive w sid cid hc
            · rw [if_pos ha, if_neg hsh] at h
              exact absurd h (by simp)
          · rw [if_neg ha] at h
            simp only [Option.some.injEq] at h
            have h2 : tr = [] := (congrArg Prod.snd h).symm
            rw [h2] at hc
            exact absurd hc (List.not_mem_nil cid)

theorem releaseConn_eq (w : World) (cid : Nat) (c : Conn)
    (hc : findConn w cid = some c) (halive : c.alive = true) :
    releaseConn w cid =
      (updateConn (match c.deleter with
          | some d => runConnDeleter w cid d
          | none => w) cid (fun c => { c with alive := false, deleter := none }),
        match c.deleter with
        | some _ => [cid]
        | none => []) := by
  unfold releaseConn
  rw [hc]
  simp only []
  rw [if_pos halive]
  cases c.deleter <;> rfl

theorem releaseSignal_eq (w : World) (sid : Nat) (s : Sig)
    (hs : findSig w sid = some s) (ha : s.alive = true) :
    releaseSignal w sid =
      updateSig
        (clearConnDeleters
          (match s.deleter with
           | some n =>
               (match mapFind w.signalsMap n with
                | some sid' =>
                    if sid' = sid then
                      { w with signalsMap := mapErase w.signalsMap n }
                    else w
                | none => w)
           | none => w) s.conns) sid
        (fun s => { s with alive := false, deleter := none }) := by
  unfold releaseSignal
  rw [hs]
  simp only []
  rw [if_pos ha]

theorem sigDeleterGuard_conns (w : World) (sid : Nat) (d : Option SigName) :
    (match d with
     | some n =>
         (match mapFind w.signalsMap n with
          | some sid' =>
              if sid' = sid then { w with signalsMap := mapErase w.signalsMap n }
              else w
          | none => w)
     | none => w).conns = w.conns := by
  cases d with
  | none => rfl
  | some n =>
      simp only []
      cases mapFind w.signalsMap n with
      | none => rfl
      | some sid' =>
          by_cases h : sid' = sid
          · simp [h]
          · simp [h]

theorem sigDeleterGuard_sigs (w : World) (sid : Nat) (d : Option SigName) :
    (match d with
     | some n =>
         (match mapFind w.signalsMap n with
          | some sid' =>
              if sid' = sid then { w with signalsMap := mapErase w.signalsMap n }
              else w
          | none => w)
     | none => w).sigs = w.sigs := by
  cases d with
  | none => rfl
  | some n =>
      simp only []
      cases mapFind w.signalsMap n with
      | none => rfl
      | some sid' =>
          by_cases h : sid' = sid
          · simp [h]
          · simp [h]

/-- C2: for every Connection created by `Signal::Connect` or
`SignalHub::Connect`, releasing the last external handle invokes the
registered detach callback exactly once, passing the connection's own
identity (the invocation trace is exactly `[cid]` when a callback is
registered), before the storage is reclaimed; afterwards the connection is
never invoked by any subsequent emission, and when the installing Signal was
already torn down (which cleared the callback) the release performs no
invocation at all. -/
theorem C2_release_detach_once (w : World) (cid : Nat) (c : Conn)
    (hc : findConn w cid = some c) (halive : c.alive = true) :
    ((releaseConn w cid).2 = if c.deleter.isSome then [cid] else []) ∧
    connAlive (releaseConn w cid).1 cid = false ∧
    (∀ sid, cid ∉ (signalEmit (releaseConn w cid).1 sid).2) ∧
    (∀ shape n w2 tr,
      hubEmit (releaseConn w cid).1 shape n = some (w2, tr) → cid ∉ tr) ∧
    (∀ sid s, c.deleter = some (ConnDeleter.toSignal sid) →
      findSig w sid = some s → s.alive = true → cid ∈ s.conns →
      (releaseConn (releaseSignal w sid) cid).2 = []) := by
  have heq := releaseConn_eq w cid c hc halive
  have htr : (releaseConn w cid).2 = if c.deleter.isSome then [cid] else [] := by
    rw [heq]
    cases c.deleter <;> rfl
  have hfcR : findConn (match c.deleter with
      | some d => runConnDeleter w cid d
      | none => w) cid = some c := by
    cases hd : c.deleter with
    | none => exact hc
    | some d =>
        simp only []
        rw [findConn_eq_of_conns w _ (runConnDeleter_conns w cid d) cid]
        exact hc
  have hdead : connAlive (releaseConn w cid).1 cid = false := by
    rw [heq]
    simp only []
    unfold connAlive
    rw [findConn_updateConn _ cid cid
      (fun c => { c with alive := false, deleter := none }) (fun _ => rfl), hfcR]
    simp [findConn_id w cid c hc]
  refine ⟨htr, hdead, ?_, ?_, ?_⟩
  · intro sid hmem
    have halive2 := signalEmit_trace_alive (releaseConn w cid).1 sid cid hmem
    rw [hdead] at halive2
    exact absurd halive2 (by decide)
  · intro shape n w2 tr hemit hmem
    have halive2 := hubEmit_trace_alive (releaseConn w cid).1 shape n w2 tr cid hemit hmem
    rw [hdead] at halive2
    exact absurd halive2 (by decide)
  · intro sid s hd hfs hsalive hmem
    have hrs := releaseSignal_eq w sid s hfs hsalive
    have hW1conns := sigDeleterGuard_conns w sid s.deleter
    have hfc1 : findConn (clearConnDeleters
        (match s.deleter with
         | some n =>
             (match mapFind w.signalsMap n with
              | some sid' =>
                  if sid' = sid then { w with signalsMap := mapErase w.signalsMap n }
                  else w
              | none => w)
         | none => w) s.conns) cid = some { c with deleter := none } := by
      apply clearConnDeleters_mem s.conns _ cid c hmem _ halive
      rw [findConn_eq_of_conns w _ hW1conns cid]
      exact hc
    have hfc2 : findConn (releaseSignal w sid) cid = some { c with deleter := none } := by
      rw [hrs]
      rw [findConn_eq_of_conns _ _ (updateSig_conns _ sid _) cid]
      exact hfc1
    have := releaseConn_eq (releaseSignal w sid) cid { c with deleter := none }
      hfc2 halive
    rw [this]

theorem C2_release_detach_once_witness :
    (releaseConn (signalConnect (newSignal emptyWorld 0 "s").1 0 9 "").1 0).2 =
      [0] := by
  have h := (C2_release_detach_once
      (signalConnect (newSignal emptyWorld 0 "s").1 0 9 "").1 0
      ⟨0, 9, 0, "", "s", true, some (ConnDeleter.toSignal 0), true⟩
      (by decide) rfl).1
  rw [h]
  decide

/-- C5: when a Signal's external owner releases it, the detach callback of
every still-alive bound Connection is cleared to a no-op before the Signal's
storage is freed (the released Signal record is marked dead), so the later
release of a Connection handle that outlived its Signal is safe: it invokes
no detach callback and touches no signal state. -/
theorem C5_signal_death_safety (w : World) (sid : Nat) (s : Sig)
    (hs : findSig w sid = some s) (halive : s.alive = true) :
    (∀ cid ∈ s.conns, connAlive w cid = true →
      ∃ c, findConn (releaseSignal w sid) cid = some c ∧ c.deleter = none ∧
        c.alive = true) ∧
    (∃ s', findSig (releaseSignal w sid) sid = some s' ∧ s'.alive = false) ∧
    (∀ cid ∈ s.conns, connAlive w cid = true →
      (releaseConn (releaseSignal w sid) cid).2 = [] ∧
      (releaseConn (releaseSignal w sid) cid).1.sigs = (releaseSignal w sid).sigs) := by
  have hrs := releaseSignal_eq w sid s hs halive
  have hW1conns := sigDeleterGuard_conns w sid s.deleter
  have hW1sigs := sigDeleterGuard_sigs w sid s.deleter
  have hfind : ∀ cid ∈ s.conns, connAlive w cid = true →
      ∃ c0, findConn w cid = some c0 ∧ c0.alive = true ∧
        findConn (releaseSignal w sid) cid = some { c0 with deleter := none } := by
    intro cid hmem hal
    unfold connAlive at hal
    cases hg : findConn w cid with
    | none => rw [hg] at hal; exact absurd hal (by decide)
    | some c0 =>
        rw [hg] at hal
        refine ⟨c0, rfl, hal, ?_⟩
        rw [hrs]
        rw [findConn_eq_of_conns _ _ (updateSig_conns _ sid _) cid]
        apply clearConnDeleters_mem s.conns _ cid c0 hmem _ hal
        rw [findConn_eq_of_conns w _ hW1conns cid]
        exact hg
  refine ⟨?_, ?_, ?_⟩
  · intro cid hmem hal
    obtain ⟨c0, _, hal0, hfc⟩ := hfind cid hmem hal
    exact ⟨{ c0 with deleter := none }, hfc, rfl, hal0⟩
  · refine ⟨{ s with alive := false, deleter := none }, ?_, rfl⟩
    rw [hrs]
    rw [findSig_updateSig _ sid sid
      (fun s => { s with alive := false, deleter := none }) (fun _ => rfl)]
    rw [findSig_eq_of_sigs _ _ (clearConnDeleters_sigs s.conns _) sid]
    rw [findSig_eq_of_sigs w _ hW1sigs sid, hs]
    simp [findSig_id w sid s hs]
  · intro cid hmem hal
    obtain ⟨c0, _, hal0, hfc⟩ := hfind cid hmem hal
    have := releaseConn_eq (releaseSignal w sid) cid { c0 with deleter := none }
      hfc hal0
    rw [this]
    exact ⟨rfl, rfl⟩

theorem C5_signal_death_safety_witness :
    (releaseConn (releaseSignal
      (signalConnect (newSignal emptyWorld 0 "s").1 0 9 "").1 0) 0).2 = [] :=
  ((C5_signal_death_safety (signalConnect (newSignal emptyWorld 0 "s").1 0 9 "").1
      0 ⟨0, "s", 0, true, [0], none, true⟩ (by decide) rfl).2.2 0 (by decide)
      (by decide)).1

theorem idsFrom_succ (s k : Nat) : idsFrom s (k + 1) = s :: idsFrom (s + 1) k := rfl

theorem mem_idsFrom : ∀ (k s m : Nat), m ∈ idsFrom s k ↔ s ≤ m ∧ m < s + k
  | 0, s, m => by
      simp only [idsFrom, List.not_mem_nil, false_iff]
      omega
  | k + 1, s, m => by
      rw [idsFrom_succ, List.mem_cons, mem_idsFrom k (s + 1) m]
      omega

theorem idsFrom_nodup : ∀ (k s : Nat), List.Nodup (idsFrom s k)
  | 0, _ => List.nodup_nil
  | k + 1, s => by
      rw [idsFrom_succ]
      refine List.nodup_cons.mpr ⟨?_, idsFrom_nodup k (s + 1)⟩
      rw [mem_idsFrom]
      omega

theorem idsFrom_length : ∀ (k s : Nat), (idsFrom s k).length = k
  | 0, _ => rfl
  | k + 1, s => by
      rw [idsFrom_succ, List.length_cons, idsFrom_length k (s + 1)]

theorem signalConnect_eq (w : World) (sid : Nat) (s : Sig) (slot : Nat)
    (nm : SigName) (hs : findSig w sid = some s) :
    signalConnect w sid slot nm =
      (updateSig { w with
          conns := w.conns ++
            [{ id := w.nextConn, slot := slot, shape := s.shape, cname := nm,
               sigName := s.sname, enabled := true,
               deleter := some (ConnDeleter.toSignal sid), alive := true }],
          nextConn := w.nextConn + 1 } sid
        (fun s => { s with conns := s.conns ++ [w.nextConn] }), w.nextConn) := by
  unfold signalConnect
  rw [hs]

theorem signalConnect_findSig (w : World) (sid : Nat) (s : Sig) (slot : Nat)
    (nm : SigName) (hs : findSig w sid = some s) :
    findSig (signalConnect w sid slot nm).1 sid =
      some { s with conns := s.conns ++ [w.nextConn] } := by
  rw [signalConnect_eq w sid s slot nm hs]
  simp only []
  rw [findSig_updateSig _ sid sid
    (fun s => { s with conns := s.conns ++ [w.nextConn] }) (fun _ => rfl)]
  have hs' : findSig { w with
      conns := w.conns ++
        [{ id := w.nextConn, slot := slot, shape := s.shape, cname := nm,
           sigName := s.sname, enabled := true,
           deleter := some (ConnDeleter.toSignal sid), alive := true }],
      nextConn := w.nextConn + 1 } sid = some s := hs
  rw [hs']
  simp [findSig_id w sid s hs]

theorem signalConnect_nextConn (w : World) (sid : Nat) (s : Sig) (slot : Nat)
    (nm : SigName) (hs : findSig w sid = some s) :
    (signalConnect w sid slot nm).1.nextConn = w.nextConn + 1 := by
  rw [signalConnect_eq w sid s slot nm hs]
  rfl


theorem signalConnect_findConn_old (w : World) (sid : Nat) (s : Sig)
    (slot : Nat) (nm : SigName) (hs : findSig w sid = some s) (cid : Nat)
    (hlt : cid < w.nextConn) :
    findConn (signalConnect w sid slot nm).1 cid = findConn w cid := by
  rw [signalConnect_eq w sid s slot nm hs]
  simp only []
  rw [findConn_eq_of_conns _ _ (updateSig_conns _ sid _) cid]
  unfold findConn
  simp only []
  rw [List.find?_append]
  cases h : w.conns.find? (fun c => c.id = cid) with
  | some c => rfl
  | none =>
      simp only [Option.none_or]
      have : cid ≠ w.nextConn := Nat.ne_of_lt hlt
      simp [List.find?, this.symm]

theorem signalConnect_findConn_new (w : World) (sid : Nat) (s : Sig)
    (slot : Nat) (nm : SigName) (hs : findSig w sid = some s)
    (hfresh : ∀ c ∈ w.conns, c.id < w.nextConn) :
    findConn (signalConnect w sid slot nm).1 w.nextConn =
      some { id := w.nextConn, slot := slot, shape := s.shape, cname := nm,
             sigName := s.sname, enabled := true,
             deleter := some (ConnDeleter.toSignal sid), alive := true } := by
  rw [signalConnect_eq w sid s slot nm hs]
  simp only []
  rw [findConn_eq_of_conns _ _ (updateSig_conns _ sid _) w.nextConn]
  unfold findConn
  simp only []
  rw [List.find?_append]
  have hnone : w.conns.find? (fun c => c.id = w.nextConn) = none := by
    rw [List.find?_eq_none]
    intro c hc
    have := hfresh c hc
    simp [Nat.ne_of_lt this]
  rw [hnone]
  simp [List.find?]

theorem signalConnect_fresh (w : World) (sid : Nat) (s : Sig) (slot : Nat)
    (nm : SigName) (hs : findSig w sid = some s)
    (hfresh : ∀ c ∈ w.conns, c.id < w.nextConn) :
    ∀ c ∈ (signalConnect w sid slot nm).1.conns,
      c.id < (signalConnect w sid slot nm).1.nextConn := by
  rw [signalConnect_eq w sid s slot nm hs]
  simp only []
  intro c hc
  rw [updateSig_conns] at hc
  simp only [List.mem_append, List.mem_singleton] at hc
  cases hc with
  | inl h => exact Nat.lt_trans (hfresh c h) (Nat.lt_succ_self _)
  | inr h => rw [h]; exact Nat.lt_succ_self _

theorem connectMany_cons (w : World) (sid : Nat) (sl : Nat)
    (slots : List Nat) :
    connectMany w sid (sl :: slots) =
      connectMany (signalConnect w sid sl "").1 sid slots := rfl

theorem connectMany_spec : ∀ (slots : List Nat) (w : World) (sid : Nat) (s : Sig),
    findSig w sid = some s →
    (∀ c ∈ w.conns, c.id < w.nextConn) →
    ∃ s', findSig (connectMany w sid slots) sid = some s' ∧
      s'.conns = s.conns ++ idsFrom w.nextConn slots.length ∧
      s'.alive = s.alive ∧ s'.enabled = s.enabled ∧ s'.shape = s.shape ∧
      (connectMany w sid slots).nextConn = w.nextConn + slots.length ∧
      (∀ c ∈ (connectMany w sid slots).conns,
        c.id < (connectMany w sid slots).nextConn) ∧
      (∀ cid, cid < w.nextConn →
        findConn (connectMany w sid slots) cid = findConn w cid) ∧
      (∀ i, i < slots.length →
        ∃ c, findConn (connectMany w sid slots) (w.nextConn + i) = some c ∧
          c.slot = slots.getD i 0 ∧ c.alive = true ∧ c.enabled = true)
  | [], w, sid, s, hs, hfresh => by
      refine ⟨s, hs, ?_, rfl, rfl, rfl, rfl, hfresh, fun cid _ => rfl, ?_⟩
      · simp [idsFrom]
      · intro i hi
        exact absurd hi (Nat.not_lt_zero i)
  | sl :: rest, w, sid, s, hs, hfresh => by
      rw [connectMany_cons]
      have hs1 := signalConnect_findSig w sid s sl "" hs
      have hfresh1 := signalConnect_fresh w sid s sl "" hs hfresh
      have hnext1 := signalConnect_nextConn w sid s sl "" hs
      obtain ⟨s2, hfs2, hconns2, hal2, hen2, hsh2, hnext2, hfresh2, hpres2, hidx2⟩ :=
        connectMany_spec rest (signalConnect w sid sl "").1 sid
          { s with conns := s.conns ++ [w.nextConn] } hs1 hfresh1
      refine ⟨s2, hfs2, ?_, hal2, hen2, hsh2, ?_, hfresh2, ?_, ?_⟩
      · rw [hconns2]
        simp only []
        rw [hnext1, List.append_assoc, List.singleton_append, List.length_cons,
          idsFrom_succ]
      · rw [hnext2, hnext1, List.length_cons]
        omega
      · intro cid hlt
        rw [hpres2 cid (by rw [hnext1]; omega)]
        exact signalConnect_findConn_old w sid s sl "" hs cid hlt
      · intro i hi
        cases i with
        | zero =>
            refine ⟨{ id := w.nextConn, slot := sl, shape := s.shape, cname := "",
                      sigName := s.sname, enabled := true,
                      deleter := some (ConnDeleter.toSignal sid), alive := true },
                    ?_, rfl, rfl, rfl⟩
            rw [Nat.add_zero]
            rw [hpres2 w.nextConn (by rw [hnext1]; omega)]
            exact signalConnect_findConn_new w sid s sl "" hs hfresh
        | succ j =>
            have hj : j < rest.length := by
              rw [List.length_cons] at hi
              omega
            obtain ⟨c, hc, hslot, hca, hce⟩ := hidx2 j hj
            refine ⟨c, ?_, hslot, hca, hce⟩
            rw [hnext1] at hc
            have : w.nextConn + (j + 1) = w.nextConn + 1 + j := by omega
            rw [this]
            exact hc

theorem signalEmit_trace_of_enabled (w : World) (sid : Nat) (s : Sig)
    (hs : findSig w sid = some s) (hen : s.enabled = true) :
    (signalEmit w sid).2 =
      s.conns.filter (fun cid => connAlive w cid && connEnabled w cid) := by
  unfold signalEmit
  rw [hs]
  simp [hen, signalEmitWalk_trace]

/-- C4: for every Signal and every N, after a sequence of N `Connect` calls
on that Signal a single `Emit` invokes the callbacks of all live, enabled
connections exactly once each (the trace is the duplicate-free list of the
freshly handed-out connection identities), in connect order (left to right
over the dispatch list, insertion order = dispatch order), each carrying the
callback it was connected with. -/
theorem C4_emit_in_connect_order (w : World) (sid : Nat) (s : Sig)
    (slots : List Nat) (hs : findSig w sid = some s) (halive : s.alive = true)
    (hen : s.enabled = true) (hconns : s.conns = [])
    (hfresh : ∀ c ∈ w.conns, c.id < w.nextConn) :
    (signalEmit (connectMany w sid slots) sid).2 =
      idsFrom w.nextConn slots.length ∧
    List.Nodup (idsFrom w.nextConn slots.length) ∧
    (∀ i, i < slots.length →
      connSlot (connectMany w sid slots) (w.nextConn + i) = slots.getD i 0) := by
  obtain ⟨s2, hfs2, hconns2, _, hen2, _, _, _, _, hidx2⟩ :=
    connectMany_spec slots w sid s hs hfresh
  rw [hconns] at hconns2
  rw [List.nil_append] at hconns2
  refine ⟨?_, idsFrom_nodup slots.length w.nextConn, ?_⟩
  · rw [signalEmit_trace_of_enabled (connectMany w sid slots) sid s2 hfs2
      (hen2.trans hen), hconns2]
    rw [List.filter_eq_self]
    intro cid hcid
    rw [mem_idsFrom] at hcid
    obtain ⟨hle, hlt⟩ := hcid
    obtain ⟨i, hi⟩ : ∃ i, cid = w.nextConn + i := ⟨cid - w.nextConn, by omega⟩
    have hilt : i < slots.length := by omega
    obtain ⟨c, hc, _, hca, hce⟩ := hidx2 i hilt
    rw [hi]
    unfold connAlive connEnabled
    rw [hc]
    simp [hca, hce]
  · intro i hi
    obtain ⟨c, hc, hslot, _, _⟩ := hidx2 i hi
    unfold connSlot
    rw [hc]
    simp only []
    exact hslot

theorem C4_emit_in_connect_order_witness :
    (signalEmit (connectMany (newSignal emptyWorld 0 "s").1 0 [3, 4]) 0).2 =
      [0, 1] := by
  have h := (C4_emit_in_connect_order (newSignal emptyWorld 0 "s").1 0
      ⟨0, "s", 0, true, [], none, true⟩ [3, 4] (by decide) rfl rfl rfl
      (fun c hc => absurd hc (List.not_mem_nil c))).1
  rw [h]
  rfl

theorem retargetDeleters_cons (w : World) (x : Nat) (xs : List Nat) (sid : Nat) :
    retargetDeleters w (x :: xs) sid =
      retargetDeleters
        (updateConn w x (fun c => { c with deleter := some (ConnDeleter.toSignal sid) }))
        xs sid := rfl

theorem retargetDeleters_sigs : ∀ (l : List Nat) (w : World) (sid : Nat),
    (retargetDeleters w l sid).sigs = w.sigs
  | [], _, _ => rfl
  | x :: xs, w, sid => retargetDeleters_sigs xs _ sid

theorem retargetDeleters_signalsMap : ∀ (l : List Nat) (w : World) (sid : Nat),
    (retargetDeleters w l sid).signalsMap = w.signalsMap
  | [], _, _ => rfl
  | x :: xs, w, sid => retargetDeleters_signalsMap xs _ sid

theorem retargetDeleters_earlyConns : ∀ (l : List Nat) (w : World) (sid : Nat),
    (retargetDeleters w l sid).earlyConns = w.earlyConns
  | [], _, _ => rfl
  | x :: xs, w, sid => retargetDeleters_earlyConns xs _ sid

theorem retargetDeleters_nextConn : ∀ (l : List Nat) (w : World) (sid : Nat),
    (retargetDeleters w l sid).nextConn = w.nextConn
  | [], _, _ => rfl
  | x :: xs, w, sid => retargetDeleters_nextConn xs _ sid

theorem retargetDeleters_nextSig : ∀ (l : List Nat) (w : World) (sid : Nat),
    (retargetDeleters w l sid).nextSig = w.nextSig
  | [], _, _ => rfl
  | x :: xs, w, sid => retargetDeleters_nextSig xs _ sid

theorem connAlive_retargetDeleters : ∀ (l : List Nat) (w : World) (sid a : Nat),
    connAlive (retargetDeleters w l sid) a = connAlive w a
  | [], _, _, _ => rfl
  | x :: xs, w, sid, a => by
      rw [retargetDeleters_cons,
        connAlive_retargetDeleters xs _ sid a,
        connAlive_updateConn w x a
          (fun c => { c with deleter := some (ConnDeleter.toSignal sid) })
          (fun _ => rfl) (fun _ => rfl)]

theorem connEnabled_retargetDeleters : ∀ (l : List Nat) (w : World) (sid a : Nat),
    connEnabled (retargetDeleters w l sid) a = connEnabled w a
  | [], _, _, _ => rfl
  | x :: xs, w, sid, a => by
      rw [retargetDeleters_cons,
        connEnabled_retargetDeleters xs _ sid a,
        connEnabled_updateConn w x a
          (fun c => { c with deleter := some (ConnDeleter.toSignal sid) })
          (fun _ => rfl) (fun _ => rfl)]

theorem mapFind_eq_none_of_not_mem {α : Type} (m : List (SigName × α))
    (k : SigName) (h : k ∉ m.map Prod.fst) : mapFind m k = none := by
  induction m with
  | nil => rfl
  | cons p rest ih =>
      have hp : p.1 ≠ k := by
        intro he
        exact h (by simp [he])
      have hrest : k ∉ rest.map Prod.fst := by
        intro he
        exact h (by simp [he])
      simp [mapFind, hp, ih hrest]

theorem mapFind_mapErase_self {α : Type} (m : List (SigName × α)) (k : SigName)
    (h : (m.map Prod.fst).Nodup) : mapFind (mapErase m k) k = none := by
  induction m with
  | nil => rfl
  | cons p rest ih =>
      rw [List.map_cons, List.nodup_cons] at h
      by_cases hp : p.1 = k
      · rw [mapErase, if_pos hp]
        apply mapFind_eq_none_of_not_mem
        rw [← hp]
        exact h.1
      · rw [mapErase, if_neg hp, mapFind, if_neg hp]
        exact ih h.2

theorem findSig_fresh_append (l : List Sig) (S : Sig) (sid : Nat)
    (hfresh : ∀ s ∈ l, s.id < sid) (hid : S.id = sid) :
    (l ++ [S]).find? (fun s => s.id = sid) = some S := by
  rw [List.find?_append]
  have hnone : l.find? (fun s => decide (s.id = sid)) = none := by
    rw [List.find?_eq_none]
    intro s hs
    simp [Nat.ne_of_lt (hfresh s hs)]
  rw [hnone]
  simp [List.find?, hid]

theorem hubEmit_after_addSignal (w' : World) (sid : Nat) (S : Sig)
    (shape : Nat) (n : SigName) (wbase : World) (A : List Nat)
    (hmap : mapFind w'.signalsMap n = some sid)
    (hfs : findSig w' sid = some S)
    (hal : S.alive = true) (hen : S.enabled = true) (hsh : S.shape = shape)
    (hconns : S.conns = A)
    (hA : ∀ cid, connAlive w' cid = connAlive wbase cid)
    (hE : ∀ cid, connEnabled w' cid = connEnabled wbase cid)
    (hmem : ∀ cid ∈ A, connAlive wbase cid = true) :
    (hubEmit w' shape n).map (fun r => r.2) =
      some (A.filter (fun cid => connEnabled wbase cid)) := by
  unfold hubEmit
  rw [hmap]
  simp only []
  rw [hfs]
  simp only []
  rw [if_pos hal, if_pos hsh]
  simp only [Option.map_some', Option.some.injEq]
  rw [signalEmit_trace_of_enabled w' sid S hfs hen, hconns]
  apply List.filter_congr
  intro cid hcid
  rw [hA, hE, hmem cid hcid]
  simp

theorem hubAddSignal_eq (w : World) (shape : Nat) (n : SigName)
    (hall : (((mapFind w.earlyConns n).getD []).filter
        (fun cid => connAlive w cid)).all
        (fun cid => connShape w cid = shape) = true) :
    hubAddSignal w shape n = some
      ({ conns := (retargetDeleters w (((mapFind w.earlyConns n).getD []).filter
            (fun cid => connAlive w cid)) w.nextSig).conns,
         sigs := w.sigs ++
           [{ id := w.nextSig, sname := n, shape := shape, enabled := true,
              conns := ((mapFind w.earlyConns n).getD []).filter
                (fun cid => connAlive w cid),
              deleter := some n, alive := true }],
         signalsMap := mapInsert w.signalsMap n w.nextSig,
         earlyConns := mapErase w.earlyConns n,
         nextConn := w.nextConn,
         nextSig := w.nextSig + 1 }, w.nextSig) := by
  simp only [hubAddSignal]
  rw [if_pos hall]
  simp [Option.some.injEq, Prod.mk.injEq, World.mk.injEq,
    retargetDeleters_sigs, retargetDeleters_signalsMap,
    retargetDeleters_earlyConns, retargetDeleters_nextConn]

/-- C3: for every SignalHub and name with no live registered Signal, if
Connect calls for that name preceded AddSignal (leaving parked early
connections), then AddSignal succeeds, migrates exactly the still-alive
parked connections into the new Signal's dispatch list preserving the order
in which they were requested (the dispatch list is the parked list filtered
by liveness), clears the hub's parked-list entry for the name, and those
connections receive exactly the emissions occurring after AddSignal (an
emission before AddSignal is dropped: it invokes nothing and is not
buffered; an emission after invokes precisely the migrated, still-enabled
connections in parked order). -/
theorem C3_addSignal_migrates_parked (w : World) (n : SigName) (shape : Nat)
    (hnolive : liveSigFor w n = none)
    (hshapes : ∀ cid ∈ (mapFind w.earlyConns n).getD [],
      connAlive w cid = true → connShape w cid = shape)
    (hkeys : (w.earlyConns.map Prod.fst).Nodup)
    (hfreshS : ∀ s ∈ w.sigs, s.id < w.nextSig) :
    ∃ w', hubAddSignal w shape n = some (w', w.nextSig) ∧
      (∃ s', findSig w' w.nextSig = some s' ∧
        s'.conns = ((mapFind w.earlyConns n).getD []).filter
          (fun cid => connAlive w cid) ∧
        s'.alive = true ∧ s'.enabled = true) ∧
      mapFind w'.earlyConns n = none ∧
      (∀ shape2, hubEmit w shape2 n = some (w, [])) ∧
      ((hubEmit w' shape n).map (fun r => r.2) =
        some ((((mapFind w.earlyConns n).getD []).filter
          (fun cid => connAlive w cid)).filter
          (fun cid => connEnabled w cid))) := by
  have hall : (((mapFind w.earlyConns n).getD []).filter
      (fun cid => connAlive w cid)).all
      (fun cid => connShape w cid = shape) = true := by
    rw [List.all_eq_true]
    intro cid hcid
    have h2 := List.mem_filter.mp hcid
    simp only [decide_eq_true_eq]
    exact hshapes cid h2.1 h2.2
  have heq := hubAddSignal_eq w shape n hall
  refine ⟨_, heq, ?_, ?_, fun shape2 => hubEmit_no_live w n shape2 hnolive, ?_⟩
  · refine ⟨{ id := w.nextSig, sname := n, shape := shape, enabled := true,
              conns := ((mapFind w.earlyConns n).getD []).filter
                (fun cid => connAlive w cid),
              deleter := some n, alive := true }, ?_, rfl, rfl, rfl⟩
    exact findSig_fresh_append w.sigs _ w.nextSig hfreshS rfl
  · exact mapFind_mapErase_self w.earlyConns n hkeys
  · refine hubEmit_after_addSignal _ w.nextSig _ shape n w
      (((mapFind w.earlyConns n).getD []).filter (fun cid => connAlive w cid))
      (mapFind_mapInsert_self w.signalsMap n w.nextSig)
      (findSig_fresh_append w.sigs _ w.nextSig hfreshS rfl)
      rfl rfl rfl rfl
      (fun cid => connAlive_retargetDeleters _ w w.nextSig cid)
      (fun cid => connEnabled_retargetDeleters _ w w.nextSig cid)
      (fun cid hcid => (List.mem_filter.mp hcid).2)

theorem C3_addSignal_migrates_parked_witness :
    ((hubAddSignal ((hubConnect emptyWorld 0 "t" 5 "").getD (emptyWorld, 0)).1
        0 "t").map (fun r => mapFind r.1.earlyConns "t")) = some none := by
  obtain ⟨w', heq, _, hclear, _, _⟩ := C3_addSignal_migrates_parked
    ((hubConnect emptyWorld 0 "t" 5 "").getD (emptyWorld, 0)).1 "t" 0
    (by decide) (by decide) (by decide) (by decide)
  rw [heq]
  simp only [Option.map_some', Option.some.injEq]
  exact hclear

theorem findSig_append_old (l : List Sig) (S : Sig) (sid : Nat) (s : Sig)
    (h : l.find? (fun s => s.id = sid) = some s) :
    (l ++ [S]).find? (fun s => s.id = sid) = some s := by
  rw [List.find?_append, h]
  rfl

theorem liveSigFor_of_find (w' : World) (n : SigName) (sid : Nat) (S : Sig)
    (hmap : mapFind w'.signalsMap n = some sid)
    (hfs : findSig w' sid = some S) (hal : S.alive = true) :
    liveSigFor w' n = some sid := by
  unfold liveSigFor
  rw [hmap]
  simp only []
  rw [hfs]
  simp only []
  rw [if_pos hal]

theorem releaseSignal_keeps_other_entry (w' : World) (sidOld : Nat) (sOld : Sig)
    (n : SigName) (sidNew : Nat)
    (hold : findSig w' sidOld = some sOld) (halive : sOld.alive = true)
    (hdel : sOld.deleter = some n)
    (hmap : mapFind w'.signalsMap n = some sidNew)
    (hne : sidNew ≠ sidOld) :
    mapFind (releaseSignal w' sidOld).signalsMap n = some sidNew := by
  rw [releaseSignal_eq w' sidOld sOld hold halive]
  rw [updateSig_signalsMap, clearConnDeleters_signalsMap]
  rw [hdel]
  simp only []
  rw [hmap]
  simp only []
  rw [if_neg hne]
  exact hmap

/-- C10: calling AddSignal with a name under which a live Signal is already
registered unconditionally overwrites the hub's map entry with the new
Signal; the old Signal's record is untouched (it stays alive for its
external holders) but the hub now resolves the name to the new Signal; and
when the replaced old Signal is later released, its detach callback leaves
the new map entry in place, because it erases the entry only if the entry
still stores the releasing instance. -/
theorem C10_addSignal_overwrites_live (w : World) (n : SigName) (shape : Nat)
    (sidOld : Nat) (sOld : Sig)
    (hmap : mapFind w.signalsMap n = some sidOld)
    (hold : findSig w sidOld = some sOld) (halive : sOld.alive = true)
    (hdel : sOld.deleter = some n)
    (hnoearly : mapFind w.earlyConns n = none)
    (hfreshS : ∀ s ∈ w.sigs, s.id < w.nextSig) :
    ∃ w', hubAddSignal w shape n = some (w', w.nextSig) ∧
      mapFind w'.signalsMap n = some w.nextSig ∧
      w.nextSig ≠ sidOld ∧
      liveSigFor w' n = some w.nextSig ∧
      findSig w' sidOld = some sOld ∧
      mapFind (releaseSignal w' sidOld).signalsMap n = some w.nextSig := by
  have hall : (((mapFind w.earlyConns n).getD []).filter
      (fun cid => connAlive w cid)).all
      (fun cid => connShape w cid = shape) = true := by
    rw [hnoearly]
    rfl
  have heq := hubAddSignal_eq w shape n hall
  have hne : w.nextSig ≠ sidOld := by
    have h1 : sOld.id = sidOld := findSig_id w sidOld sOld hold
    have h2 : sOld.id < w.nextSig := hfreshS sOld (findSig_mem w sidOld sOld hold)
    omega
  refine ⟨_, heq, mapFind_mapInsert_self w.signalsMap n w.nextSig, hne,
    liveSigFor_of_find _ n w.nextSig _
      (mapFind_mapInsert_self w.signalsMap n w.nextSig)
      (findSig_fresh_append w.sigs _ w.nextSig hfreshS rfl) rfl,
    findSig_append_old w.sigs _ sidOld sOld hold,
    releaseSignal_keeps_other_entry _ sidOld sOld n w.nextSig
      (findSig_append_old w.sigs _ sidOld sOld hold) halive hdel
      (mapFind_mapInsert_self w.signalsMap n w.nextSig) hne⟩

theorem C10_addSignal_overwrites_live_witness :
    ((hubAddSignal ((hubAddSignal emptyWorld 0 "n").getD (emptyWorld, 0)).1
        0 "n").map
      (fun r => mapFind (releaseSignal r.1 0).signalsMap "n")) = some (some 1) := by
  obtain ⟨w', heq, _, _, _, _, hrel⟩ := C10_addSignal_overwrites_live
    ((hubAddSignal emptyWorld 0 "n").getD (emptyWorld, 0)).1 "n" 0 0
    ⟨0, "n", 0, true, [], some "n", true⟩ (by decide) (by decide) rfl rfl
    (by decide) (by decide)
  rw [heq]
  simp only [Option.map_some', Option.some.injEq]
  exact hrel

/-! Arithmetic toolkit for the single-reference invariant. -/

theorem sum_map_congr {α : Type} : ∀ (l : List α) (f g : α → Nat),
    (∀ a ∈ l, f a = g a) → (l.map f).sum = (l.map g).sum
  | [], _, _, _ => rfl
  | x :: xs, f, g, h => by
      simp only [List.map_cons, List.sum_cons]
      rw [h x (List.mem_cons_self x xs),
        sum_map_congr xs f g (fun a ha => h a (List.mem_cons_of_mem x ha))]

theorem sum_map_le_sum_add {α : Type} : ∀ (l : List α) (f g h : α → Nat),
    (∀ a ∈ l, f a ≤ g a + h a) →
    (l.map f).sum ≤ (l.map g).sum + (l.map h).sum
  | [], _, _, _, _ => Nat.le_refl 0
  | x :: xs, f, g, h, hfg => by
      simp only [List.map_cons, List.sum_cons]
      have h1 := hfg x (List.mem_cons_self x xs)
      have h2 := sum_map_le_sum_add xs f g h
        (fun a ha => hfg a (List.mem_cons_of_mem x ha))
      omega

theorem map_map_congr {α β : Type} : ∀ (l : List α) (g : α → α) (f : α → β),
    (∀ a ∈ l, f (g a) = f a) → (l.map g).map f = l.map f
  | [], _, _, _ => rfl
  | x :: xs, g, f, h => by
      simp only [List.map_cons]
      rw [h x (List.mem_cons_self x xs),
        map_map_congr xs g f (fun a ha => h a (List.mem_cons_of_mem x ha))]

theorem listEraseFirst_count_le : ∀ (l : List Nat) (x cid : Nat),
    (listEraseFirst l x).count cid ≤ l.count cid
  | [], _, _ => Nat.le_refl 0
  | y :: ys, x, cid => by
      unfold listEraseFirst
      by_cases hy : y = x
      · rw [if_pos hy, List.count_cons]
        omega
      · rw [if_neg hy, List.count_cons, List.count_cons]
        have := listEraseFirst_count_le ys x cid
        omega

theorem sum_ind_eq_count : ∀ (l : List Sig) (sid : Nat),
    (l.map (fun s => if s.id = sid then 1 else 0)).sum =
      (l.map Sig.id).count sid
  | [], _ => rfl
  | x :: xs, sid => by
      simp only [List.map_cons, List.sum_cons, List.count_cons]
      rw [sum_ind_eq_count xs sid]
      by_cases hx : x.id = sid
      · simp [hx]
        omega
      · simp [hx]

theorem earlySum_cons (p : SigName × List Nat) (rest : List (SigName × List Nat))
    (cid : Nat) : earlySum (p :: rest) cid = p.2.count cid + earlySum rest cid := by
  unfold earlySum
  simp [List.sum_cons]

theorem earlySum_mapInsert : ∀ (m : List (SigName × List Nat)) (k : SigName)
    (v : List Nat) (cid : Nat),
    earlySum (mapInsert m k v) cid + ((mapFind m k).getD []).count cid =
      earlySum m cid + v.count cid
  | [], k, v, cid => by
      simp [mapInsert, mapFind, earlySum]
  | p :: rest, k, v, cid => by
      by_cases hp : p.1 = k
      · rw [mapInsert, if_pos hp, mapFind, if_pos hp]
        rw [earlySum_cons, earlySum_cons]
        simp only [Option.getD_some]
        omega
      · rw [mapInsert, if_neg hp, mapFind, if_neg hp]
        rw [earlySum_cons, earlySum_cons]
        simp only [Prod.mk.eta]
        have := earlySum_mapInsert rest k v cid
        omega

theorem earlySum_mapErase : ∀ (m : List (SigName × List Nat)) (k : SigName)
    (cid : Nat),
    earlySum (mapErase m k) cid + ((mapFind m k).getD []).count cid =
      earlySum m cid
  | [], _, _ => rfl
  | p :: rest, k, cid => by
      by_cases hp : p.1 = k
      · rw [mapErase, if_pos hp, mapFind, if_pos hp]
        rw [earlySum_cons]
        simp only [Option.getD_some]
        omega
      · rw [mapErase, if_neg hp, mapFind, if_neg hp]
        rw [earlySum_cons, earlySum_cons]
        simp only [Prod.mk.eta]
        have := earlySum_mapErase rest k cid
        omega

theorem count_mapFind_le_earlySum : ∀ (m : List (SigName × List Nat))
    (k : SigName) (cid : Nat),
    ((mapFind m k).getD []).count cid ≤ earlySum m cid
  | [], _, _ => Nat.le_refl 0
  | p :: rest, k, cid => by
      by_cases hp : p.1 = k
      · rw [mapFind, if_pos hp, earlySum_cons]
        simp only [Option.getD_some]
        omega
      · rw [mapFind, if_neg hp, earlySum_cons]
        have := count_mapFind_le_earlySum rest k cid
        omega

theorem occSig_append (w : World) (l2 : List Sig) (cid : Nat) :
    sigSum (w.sigs ++ l2) cid = occSig w cid + sigSum l2 cid := by
  unfold occSig sigSum
  rw [List.map_append, List.sum_append]

theorem occSig_updateSig_congr (w : World) (sid : Nat) (f : Sig → Sig)
    (cid : Nat)
    (h : ∀ s ∈ w.sigs, sigOcc (if s.id = sid then f s else s) cid = sigOcc s cid) :
    occSig (updateSig w sid f) cid = occSig w cid := by
  unfold occSig updateSig sigSum
  simp only []
  rw [map_map_congr w.sigs _ (fun s => sigOcc s cid) h]

theorem occSig_updateSig_le (w : World) (sid : Nat) (f : Sig → Sig) (cid : Nat)
    (h : ∀ s ∈ w.sigs, sigOcc (if s.id = sid then f s else s) cid ≤ sigOcc s cid) :
    occSig (updateSig w sid f) cid ≤ occSig w cid := by
  unfold occSig updateSig sigSum
  simp only [List.map_map]
  exact List.sum_le_sum (fun s hs => h s hs)

theorem occSig_updateSig_le_add (w : World) (sid : Nat) (f : Sig → Sig)
    (cid : Nat)
    (h : ∀ s ∈ w.sigs, sigOcc (if s.id = sid then f s else s) cid ≤
      sigOcc s cid + (if s.id = sid then 1 else 0)) :
    occSig (updateSig w sid f) cid ≤ occSig w cid +
      (w.sigs.map Sig.id).count sid := by
  unfold occSig updateSig sigSum
  simp only [List.map_map]
  have h1 := sum_map_le_sum_add w.sigs
    (fun s => sigOcc (if s.id = sid then f s else s) cid)
    (fun s => sigOcc s cid) (fun s => if s.id = sid then 1 else 0) h
  rw [sum_ind_eq_count w.sigs sid] at h1
  exact h1

theorem sigIds_updateSig (w : World) (sid : Nat) (f : Sig → Sig)
    (hid : ∀ s, (f s).id = s.id) :
    (updateSig w sid f).sigs.map Sig.id = w.sigs.map Sig.id := by
  unfold updateSig
  simp only []
  apply map_map_congr
  intro s _
  by_cases hs : s.id = sid
  · simp [hs, hid]
  · simp [hs]

theorem occSig_updateConn (w : World) (cid' : Nat) (f : Conn → Conn) (cid : Nat) :
    occSig (updateConn w cid' f) cid = occSig w cid := rfl

theorem occEarly_updateConn (w : World) (cid' : Nat) (f : Conn → Conn)
    (cid : Nat) : occEarly (updateConn w cid' f) cid = occEarly w cid := rfl

theorem occEarly_updateSig (w : World) (sid : Nat) (f : Sig → Sig) (cid : Nat) :
    occEarly (updateSig w sid f) cid = occEarly w cid := rfl

theorem sigDeleterGuard_earlyConns (w : World) (sid : Nat) (d : Option SigName) :
    (match d with
     | some n =>
         (match mapFind w.signalsMap n with
          | some sid' =>
              if sid' = sid then { w with signalsMap := mapErase w.signalsMap n }
              else w
          | none => w)
     | none => w).earlyConns = w.earlyConns := by
  cases d with
  | none => rfl
  | some n =>
      simp only []
      cases mapFind w.signalsMap n with
      | none => rfl
      | some sid' =>
          by_cases h : sid' = sid
          · simp [h]
          · simp [h]

theorem sigDeleterGuard_nextConn (w : World) (sid : Nat) (d : Option SigName) :
    (match d with
     | some n =>
         (match mapFind w.signalsMap n with
          | some sid' =>
              if sid' = sid then { w with signalsMap := mapErase w.signalsMap n }
              else w
          | none => w)
     | none => w).nextConn = w.nextConn := by
  cases d with
  | none => rfl
  | some n =>
      simp only []
      cases mapFind w.signalsMap n with
      | none => rfl
      | some sid' =>
          by_cases h : sid' = sid
          · simp [h]
          · simp [h]

theorem sigDeleterGuard_nextSig (w : World) (sid : Nat) (d : Option SigName) :
    (match d with
     | some n =>
         (match mapFind w.signalsMap n with
          | some sid' =>
              if sid' = sid then { w with signalsMap := mapErase w.signalsMap n }
              else w
          | none => w)
     | none => w).nextSig = w.nextSig := by
  cases d with
  | none => rfl
  | some n =>
      simp only []
      cases mapFind w.signalsMap n with
      | none => rfl
      | some sid' =>
          by_cases h : sid' = sid
          · simp [h]
          · simp [h]

theorem clearConnDeleters_nextConn (l : List Nat) (w : World) :
    (clearConnDeleters w l).nextConn = w.nextConn :=
  clearConnDeleters_proj World.nextConn (fun _ _ => rfl) l w

theorem clearConnDeleters_nextSig (l : List Nat) (w : World) :
    (clearConnDeleters w l).nextSig = w.nextSig :=
  clearConnDeleters_proj World.nextSig (fun _ _ => rfl) l w

theorem clearSigDeleters_cons (w : World) (p : SigName × Nat)
    (rest : List (SigName × Nat)) :
    clearSigDeleters w (p :: rest) =
      clearSigDeleters
        (match findSig w p.2 with
         | some s =>
             if s.alive then updateSig w p.2 (fun s => { s with deleter := none })
             else w
         | none => w) rest := rfl

theorem clearSigDeleters_proj {β : Type} (proj : World → β)
    (hstep : ∀ (w : World) (sid : Nat),
      proj (updateSig w sid (fun s => { s with deleter := none })) = proj w) :
    ∀ (m : List (SigName × Nat)) (w : World), proj (clearSigDeleters w m) = proj w
  | [], _ => rfl
  | p :: rest, w => by
      rw [clearSigDeleters_cons]
      cases h : findSig w p.2 with
      | none => exact clearSigDeleters_proj proj hstep rest w
      | some s =>
          simp only []
          by_cases ha : s.alive
          · rw [if_pos ha, clearSigDeleters_proj proj hstep rest _, hstep]
          · rw [if_neg ha]
            exact clearSigDeleters_proj proj hstep rest w

theorem clearEarlyDeleters_cons (w : World) (p : SigName × List Nat)
    (rest : List (SigName × List Nat)) :
    clearEarlyDeleters w (p :: rest) =
      clearEarlyDeleters (clearConnDeleters w p.2) rest := rfl

theorem clearEarlyDeleters_proj {β : Type} (proj : World → β)
    (hstep : ∀ (w : World) (l : List Nat), proj (clearConnDeleters w l) = proj w) :
    ∀ (m : List (SigName × List Nat)) (w : World),
      proj (clearEarlyDeleters w m) = proj w
  | [], _ => rfl
  | p :: rest, w => by
      rw [clearEarlyDeleters_cons, clearEarlyDeleters_proj proj hstep rest _, hstep]

theorem occSig_eq_of_sigs (w w' : World) (h : w'.sigs = w.sigs) (cid : Nat) :
    occSig w' cid = occSig w cid := by
  unfold occSig
  rw [h]

theorem occEarly_eq_of_earlyConns (w w' : World)
    (h : w'.earlyConns = w.earlyConns) (cid : Nat) :
    occEarly w' cid = occEarly w cid := by
  unfold occEarly
  rw [h]

theorem findSig_unique (w : World) (sid : Nat) (s : Sig)
    (hnodup : (w.sigs.map Sig.id).Nodup) (hs : findSig w sid = some s)
    (s' : Sig) (hmem : s' ∈ w.sigs) (hid : s'.id = sid) : s' = s := by
  have hsmem : s ∈ w.sigs := List.mem_of_find?_eq_some hs
  have hsid : s.id = sid := findSig_id w sid s hs
  exact List.inj_on_of_nodup_map hnodup hmem hsmem (by rw [hid, hsid])

/-! Per-operation structure preservation (signal identities and counters). -/

theorem struct_signalEmit (w : World) (sid : Nat) :
    (signalEmit w sid).1.sigs.map Sig.id = w.sigs.map Sig.id ∧
    (signalEmit w sid).1.nextConn = w.nextConn ∧
    (signalEmit w sid).1.nextSig = w.nextSig := by
  unfold signalEmit
  cases hs : findSig w sid with
  | none => exact ⟨rfl, rfl, rfl⟩
  | some s =>
      simp only []
      by_cases he : s.enabled = true
      · rw [if_pos he]
        exact ⟨sigIds_updateSig _ sid _ (fun _ => rfl), rfl, rfl⟩
      · rw [if_neg he]
        exact ⟨rfl, rfl, rfl⟩

theorem struct_runConnDeleter (w : World) (cid : Nat) (d : ConnDeleter) :
    (runConnDeleter w cid d).sigs.map Sig.id = w.sigs.map Sig.id ∧
    (runConnDeleter w cid d).nextConn = w.nextConn ∧
    (runConnDeleter w cid d).nextSig = w.nextSig := by
  cases d with
  | toSignal sid => exact ⟨sigIds_updateSig w sid _ (fun _ => rfl), rfl, rfl⟩
  | toEarly n =>
      unfold runConnDeleter
      simp only []
      cases mapFind w.earlyConns n with
      | none => exact ⟨rfl, rfl, rfl⟩
      | some l => exact ⟨rfl, rfl, rfl⟩

theorem struct_releaseConn (w : World) (cid : Nat) :
    (releaseConn w cid).1.sigs.map Sig.id = w.sigs.map Sig.id ∧
    (releaseConn w cid).1.nextConn = w.nextConn ∧
    (releaseConn w cid).1.nextSig = w.nextSig := by
  unfold releaseConn
  cases hc : findConn w cid with
  | none => exact ⟨rfl, rfl, rfl⟩
  | some c =>
      simp only []
      by_cases ha : c.alive = true
      · rw [if_pos ha]
        cases hd : c.deleter with
        | some d =>
            simp only []
            exact ⟨(struct_runConnDeleter w cid d).1,
              (struct_runConnDeleter w cid d).2.1,
              (struct_runConnDeleter w cid d).2.2⟩
        | none =>
            simp only []
            exact ⟨rfl, rfl, rfl⟩
      · rw [if_neg ha]
        exact ⟨rfl, rfl, rfl⟩

theorem struct_releaseSignal (w : World) (sid : Nat) :
    (releaseSignal w sid).sigs.map Sig.id = w.sigs.map Sig.id ∧
    (releaseSignal w sid).nextConn = w.nextConn ∧
    (releaseSignal w sid).nextSig = w.nextSig := by
  unfold releaseSignal
  cases hs : findSig w sid with
  | none => exact ⟨rfl, rfl, rfl⟩
  | some s =>
      simp only []
      by_cases ha : s.alive = true
      · rw [if_pos ha]
        refine ⟨?_, ?_, ?_⟩
        · rw [sigIds_updateSig _ sid
            (fun s => { s with alive := false, deleter := none }) (fun _ => rfl)]
          rw [clearConnDeleters_sigs]
          rw [sigDeleterGuard_sigs w sid s.deleter]
        · rw [updateSig_nextConn, clearConnDeleters_nextConn]
          exact sigDeleterGuard_nextConn w sid s.deleter
        · rw [updateSig_nextSig, clearConnDeleters_nextSig]
          exact sigDeleterGuard_nextSig w sid s.deleter
      · rw [if_neg ha]
        exact ⟨rfl, rfl, rfl⟩

theorem struct_hubTeardown (w : World) :
    (hubTeardown w).sigs.map Sig.id = w.sigs.map Sig.id ∧
    (hubTeardown w).nextConn = w.nextConn ∧
    (hubTeardown w).nextSig = w.nextSig := by
  refine ⟨?_, ?_, ?_⟩
  · have e1 : (hubTeardown w).sigs = (clearSigDeleters w w.signalsMap).sigs :=
      clearEarlyDeleters_proj World.sigs (fun w l => clearConnDeleters_sigs l w) _ _
    rw [e1]
    exact clearSigDeleters_proj (fun w => w.sigs.map Sig.id)
      (fun w sid => sigIds_updateSig w sid _ (fun _ => rfl)) w.signalsMap w
  · have e1 : (hubTeardown w).nextConn =
        (clearSigDeleters w w.signalsMap).nextConn :=
      clearEarlyDeleters_proj World.nextConn
        (fun w l => clearConnDeleters_nextConn l w) _ _
    rw [e1]
    exact clearSigDeleters_proj World.nextConn (fun _ _ => rfl) w.signalsMap w
  · have e1 : (hubTeardown w).nextSig =
        (clearSigDeleters w w.signalsMap).nextSig :=
      clearEarlyDeleters_proj World.nextSig
        (fun w l => clearConnDeleters_nextSig l w) _ _
    rw [e1]
    exact clearSigDeleters_proj World.nextSig (fun _ _ => rfl) w.signalsMap w

/-! Per-operation occurrence-count facts. -/

theorem occ_connEnable (w : World) (cid' : Nat) (b : Bool) (cid : Nat) :
    occ (connEnable w cid' b) cid = occ w cid := rfl

theorem occ_sigEnable (w : World) (sid : Nat) (b : Bool) (cid : Nat) :
    occ (sigEnable w sid b) cid = occ w cid := by
  have h : ∀ s ∈ w.sigs,
      sigOcc (if s.id = sid then { s with enabled := b } else s) cid =
        sigOcc s cid := by
    intro s _
    by_cases hs : s.id = sid
    · simp [hs, sigOcc]
    · simp [hs]
  unfold occ
  rw [show occSig (sigEnable w sid b) cid = occSig w cid from
    occSig_updateSig_congr w sid _ cid h]
  rfl

theorem occ_signalEmit (w : World) (sid : Nat) (cid : Nat)
    (hnodup : (w.sigs.map Sig.id).Nodup) :
    occ (signalEmit w sid).1 cid ≤ occ w cid := by
  unfold signalEmit
  cases hs : findSig w sid with
  | none => exact Nat.le_refl _
  | some s =>
      simp only []
      by_cases he : s.enabled = true
      · rw [if_pos he]
        simp only []
        unfold occ
        rw [occEarly_updateSig]
        have h : ∀ s' ∈ w.sigs,
            sigOcc (if s'.id = sid then
              { s' with conns := (signalEmitWalk w s.conns).1 } else s') cid ≤
              sigOcc s' cid := by
          intro s' hmem
          by_cases hid : s'.id = sid
          · have hse : s' = s := findSig_unique w sid s hnodup hs s' hmem hid
            subst hse
            rw [if_pos hid]
            unfold sigOcc
            by_cases hal : s'.alive = true
            · rw [if_pos hal, if_pos hal, signalEmitWalk_keep]
              exact List.Sublist.count_le (List.filter_sublist s'.conns) cid
            · simp [hal]
          · rw [if_neg hid]
        have := occSig_updateSig_le w sid
          (fun s' => { s' with conns := (signalEmitWalk w s.conns).1 }) cid h
        omega
      · rw [if_neg he]

theorem occ_runConnDeleter (w : World) (cid' : Nat) (d : ConnDeleter)
    (cid : Nat) : occ (runConnDeleter w cid' d) cid ≤ occ w cid := by
  cases d with
  | toSignal sid =>
      have h : ∀ s ∈ w.sigs,
          sigOcc (if s.id = sid then
            { s with conns := listEraseFirst s.conns cid' } else s) cid ≤
            sigOcc s cid := by
        intro s _
        by_cases hs : s.id = sid
        · rw [if_pos hs]
          unfold sigOcc
          by_cases hal : s.alive = true
          · rw [if_pos hal, if_pos hal]
            exact listEraseFirst_count_le s.conns cid' cid
          · simp [hal]
        · rw [if_neg hs]
      have h1 := occSig_updateSig_le w sid
        (fun s => { s with conns := listEraseFirst s.conns cid' }) cid h
      show occ (updateSig w sid
        (fun s => { s with conns := listEraseFirst s.conns cid' })) cid ≤ occ w cid
      unfold occ
      rw [occEarly_updateSig]
      omega
  | toEarly n =>
      unfold runConnDeleter
      simp only []
      cases hm : mapFind w.earlyConns n with
      | none => exact Nat.le_refl _
      | some l =>
          have h1 := earlySum_mapInsert w.earlyConns n (listEraseFirst l cid') cid
          rw [hm] at h1
          simp only [Option.getD_some] at h1
          have h2 := listEraseFirst_count_le l cid' cid
          show occSig w cid +
            earlySum (mapInsert w.earlyConns n (listEraseFirst l cid')) cid ≤
            occSig w cid + earlySum w.earlyConns cid
          omega

theorem occ_releaseConn (w : World) (cid' : Nat) (cid : Nat) :
    occ (releaseConn w cid').1 cid ≤ occ w cid := by
  unfold releaseConn
  cases hc : findConn w cid' with
  | none => exact Nat.le_refl _
  | some c =>
      simp only []
      by_cases ha : c.alive = true
      · rw [if_pos ha]
        cases hd : c.deleter with
        | some d =>
            simp only []
            exact occ_runConnDeleter w cid' d cid
        | none =>
            simp only []
            exact Nat.le_refl _
      · rw [if_neg ha]

theorem occ_releaseSignal (w : World) (sid : Nat) (cid : Nat) :
    occ (releaseSignal w sid) cid ≤ occ w cid := by
  unfold releaseSignal
  cases hs : findSig w sid with
  | none => exact Nat.le_refl _
  | some s =>
      simp only []
      by_cases ha : s.alive = true
      · rw [if_pos ha]
        unfold occ
        have hE : occEarly (updateSig (clearConnDeleters
            (match s.deleter with
             | some n =>
                 (match mapFind w.signalsMap n with
                  | some sid' =>
                      if sid' = sid then
                        { w with signalsMap := mapErase w.signalsMap n }
                      else w
                  | none => w)
             | none => w) s.conns) sid
            (fun s => { s with alive := false, deleter := none })) cid =
            occEarly w cid := by
          rw [occEarly_updateSig]
          rw [occEarly_eq_of_earlyConns _ _ (clearConnDeleters_earlyConns _ _) cid]
          exact occEarly_eq_of_earlyConns w _
            (sigDeleterGuard_earlyConns w sid s.deleter) cid
        rw [hE]
        have hkill : ∀ s' ∈ (clearConnDeleters
            (match s.deleter with
             | some n =>
                 (match mapFind w.signalsMap n with
                  | some sid' =>
                      if sid' = sid then
                        { w with signalsMap := mapErase w.signalsMap n }
                      else w
                  | none => w)
             | none => w) s.conns).sigs,
            sigOcc (if s'.id = sid then
              { s' with alive := false, deleter := none } else s') cid ≤
              sigOcc s' cid := by
          intro s' _
          by_cases hid : s'.id = sid
          · rw [if_pos hid]
            unfold sigOcc
            simp
          · rw [if_neg hid]
        have h1 := occSig_updateSig_le _ sid
          (fun s => { s with alive := false, deleter := none }) cid hkill
        have h2 : occSig (clearConnDeleters
            (match s.deleter with
             | some n =>
                 (match mapFind w.signalsMap n with
                  | some sid' =>
                      if sid' = sid then
                        { w with signalsMap := mapErase w.signalsMap n }
                      else w
                  | none => w)
             | none => w) s.conns) cid = occSig w cid := by
          rw [occSig_eq_of_sigs _ _ (clearConnDeleters_sigs _ _) cid]
          exact occSig_eq_of_sigs w _ (sigDeleterGuard_sigs w sid s.deleter) cid
        omega
      · rw [if_neg ha]

theorem occ_hubTeardown (w : World) (cid : Nat) :
    occ (hubTeardown w) cid ≤ occ w cid := by
  unfold occ
  have hE : occEarly (hubTeardown w) cid = 0 := rfl
  rw [hE]
  have h1 : occSig (hubTeardown w) cid = occSig (clearSigDeleters w w.signalsMap) cid := by
    apply occSig_eq_of_sigs
    exact clearEarlyDeleters_proj World.sigs (fun w l => clearConnDeleters_sigs l w) _ _
  rw [h1]
  have h2 : occSig (clearSigDeleters w w.signalsMap) cid = occSig w cid := by
    refine clearSigDeleters_proj (fun w => occSig w cid) ?_ w.signalsMap w
    intro w sid
    apply occSig_updateSig_congr
    intro s _
    by_cases hs : s.id = sid
    · simp [hs, sigOcc]
    · simp [hs]
  omega

theorem count_append_new (l : List Nat) (x cid : Nat) :
    (l ++ [x]).count cid = l.count cid + (if x = cid then 1 else 0) := by
  rw [List.count_append, List.count_singleton]
  by_cases hx : x = cid
  · simp [hx]
  · simp [hx]

theorem occ_hubParkConnect (w : World) (shape : Nat) (n : SigName) (slot : Nat)
    (nm : SigName) (cid : Nat) :
    occ (hubParkConnect w shape n slot nm).1 cid =
      occ w cid + (if w.nextConn = cid then 1 else 0) := by
  have h1 := earlySum_mapInsert w.earlyConns n
    ((mapFind w.earlyConns n).getD [] ++ [w.nextConn]) cid
  have h2 := count_append_new ((mapFind w.earlyConns n).getD []) w.nextConn cid
  show occSig w cid + earlySum (mapInsert w.earlyConns n
    ((mapFind w.earlyConns n).getD [] ++ [w.nextConn])) cid =
    occSig w cid + earlySum w.earlyConns cid + (if w.nextConn = cid then 1 else 0)
  omega

theorem struct_hubParkConnect (w : World) (shape : Nat) (n : SigName)
    (slot : Nat) (nm : SigName) :
    (hubParkConnect w shape n slot nm).1.sigs.map Sig.id = w.sigs.map Sig.id ∧
    (hubParkConnect w shape n slot nm).1.nextConn = w.nextConn + 1 ∧
    (hubParkConnect w shape n slot nm).1.nextSig = w.nextSig ∧
    (hubParkConnect w shape n slot nm).2 = w.nextConn :=
  ⟨rfl, rfl, rfl, rfl⟩

theorem occ_hubConnect (w : World) (shape : Nat) (n : SigName) (slot : Nat)
    (nm : SigName) (w' : World) (cid' : Nat)
    (h : hubConnect w shape n slot nm = some (w', cid'))
    (hnodup : (w.sigs.map Sig.id).Nodup) :
    (∀ cid, cid ≠ w.nextConn → occ w' cid = occ w cid) ∧
    occ w' w.nextConn ≤ occ w w.nextConn + 1 ∧
    w'.nextConn = w.nextConn + 1 ∧
    w'.sigs.map Sig.id = w.sigs.map Sig.id ∧
    w'.nextSig = w.nextSig := by
  have hpark : ∀ (hp : hubParkConnect w shape n slot nm = (w', cid')),
      (∀ cid, cid ≠ w.nextConn → occ w' cid = occ w cid) ∧
      occ w' w.nextConn ≤ occ w w.nextConn + 1 ∧
      w'.nextConn = w.nextConn + 1 ∧
      w'.sigs.map Sig.id = w.sigs.map Sig.id ∧
      w'.nextSig = w.nextSig := by
    intro hp
    have hw' : w' = (hubParkConnect w shape n slot nm).1 := by rw [hp]
    subst hw'
    refine ⟨?_, ?_, rfl, rfl, rfl⟩
    · intro cid hne
      rw [occ_hubParkConnect w shape n slot nm cid, if_neg (Ne.symm hne)]
      omega
    · rw [occ_hubParkConnect w shape n slot nm w.nextConn]
      simp
  unfold hubConnect at h
  cases hm : mapFind w.signalsMap n with
  | none =>
      rw [hm] at h
      simp only [Option.some.injEq] at h
      exact hpark h
  | some sid =>
      rw [hm] at h
      simp only [] at h
      cases hs : findSig w sid with
      | none =>
          rw [hs] at h
          simp only [Option.some.injEq] at h
          exact hpark h
      | some s =>
          rw [hs] at h
          simp only [] at h
          by_cases ha : s.alive = true
          · rw [if_pos ha] at h
            by_cases hsh : s.shape = shape
            · rw [if_pos hsh] at h
              simp only [Option.some.injEq] at h
              have hw' : w' = (signalConnect w sid slot nm).1 := by rw [h]
              subst hw'
              rw [signalConnect_eq w sid s slot nm hs]
              simp only []
              set W1 : World := { w with
                conns := w.conns ++
                  [{ id := w.nextConn, slot := slot, shape := s.shape, cname := nm,
                     sigName := s.sname, enabled := true,
                     deleter := some (ConnDeleter.toSignal sid), alive := true }],
                nextConn := w.nextConn + 1 } with hW1
              refine ⟨?_, ?_, rfl,
                sigIds_updateSig W1 sid
                  (fun s' => { s' with conns := s'.conns ++ [w.nextConn] })
                  (fun _ => rfl), rfl⟩
              · intro cid hne
                have hcongr : ∀ s' ∈ W1.sigs,
                    sigOcc (if s'.id = sid then
                      { s' with conns := s'.conns ++ [w.nextConn] } else s') cid =
                      sigOcc s' cid := by
                  intro s' _
                  by_cases hid : s'.id = sid
                  · rw [if_pos hid]
                    unfold sigOcc
                    by_cases hal : s'.alive = true
                    · rw [if_pos hal, if_pos hal,
                        count_append_new s'.conns w.nextConn cid,
                        if_neg (Ne.symm hne)]
                      omega
                    · simp [hal]
                  · rw [if_neg hid]
                show occ (updateSig W1 sid
                  (fun s' => { s' with conns := s'.conns ++ [w.nextConn] })) cid =
                  occ w cid
                unfold occ
                rw [occEarly_updateSig,
                  occSig_updateSig_congr W1 sid
                    (fun s' => { s' with conns := s'.conns ++ [w.nextConn] })
                    cid hcongr]
                rfl
              · have hle : ∀ s' ∈ W1.sigs,
                    sigOcc (if s'.id = sid then
                      { s' with conns := s'.conns ++ [w.nextConn] } else s')
                      w.nextConn ≤
                      sigOcc s' w.nextConn + (if s'.id = sid then 1 else 0) := by
                  intro s' _
                  by_cases hid : s'.id = sid
                  · rw [if_pos hid, if_pos hid]
                    unfold sigOcc
                    by_cases hal : s'.alive = true
                    · rw [if_pos hal, if_pos hal,
                        count_append_new s'.conns w.nextConn w.nextConn]
                      simp
                    · simp [hal]
                  · rw [if_neg hid, if_neg hid]
                    omega
                have hb := occSig_updateSig_le_add W1 sid
                  (fun s' => { s' with conns := s'.conns ++ [w.nextConn] })
                  w.nextConn hle
                have hcount : (W1.sigs.map Sig.id).count sid ≤ 1 :=
                  List.nodup_iff_count_le_one.mp hnodup sid
                show occ (updateSig W1 sid
                  (fun s' => { s' with conns := s'.conns ++ [w.nextConn] }))
                  w.nextConn ≤ occ w w.nextConn + 1
                unfold occ
                rw [occEarly_updateSig]
                have hOS : occSig W1 w.nextConn = occSig w w.nextConn := rfl
                have hOE : occEarly W1 w.nextConn = occEarly w w.nextConn := rfl
                omega
            · rw [if_neg hsh] at h
              exact absurd h (by simp)
          · rw [if_neg ha] at h
            simp only [Option.some.injEq] at h
            exact hpark h

theorem occ_addSignal_flat (w wf : World) (S : Sig) (n : SigName)
    (hsigs : wf.sigs = w.sigs ++ [S]) (halS : S.alive = true)
    (hearly : wf.earlyConns = mapErase w.earlyConns n)
    (hcount : ∀ cid, S.conns.count cid ≤
      ((mapFind w.earlyConns n).getD []).count cid) :
    (∀ cid, occ w cid ≤ 1 → occ wf cid ≤ 1) ∧
    (∀ cid, occ w cid = 0 → occ wf cid = 0) := by
  have e : ∀ cid, occ wf cid + ((mapFind w.earlyConns n).getD []).count cid =
      occ w cid + S.conns.count cid := by
    intro cid
    have h1 : occSig wf cid = occSig w cid + S.conns.count cid := by
      have h3 : sigSum [S] cid = S.conns.count cid := by
        unfold sigSum sigOcc
        simp [halS]
      rw [show occSig wf cid = sigSum wf.sigs cid from rfl, hsigs,
        occSig_append w [S] cid, h3]
    have h2 : occEarly wf cid + ((mapFind w.earlyConns n).getD []).count cid =
        occEarly w cid := by
      unfold occEarly
      rw [hearly]
      exact earlySum_mapErase w.earlyConns n cid
    unfold occ
    omega
  constructor
  · intro cid hle
    have e1 := e cid
    have e2 := hcount cid
    omega
  · intro cid hz
    have e1 := e cid
    have e2 := hcount cid
    omega

theorem occ_hubAddSignal (w : World) (shape : Nat) (n : SigName) (w' : World)
    (sid : Nat) (h : hubAddSignal w shape n = some (w', sid)) :
    (∀ cid, occ w cid ≤ 1 → occ w' cid ≤ 1) ∧
    (∀ cid, occ w cid = 0 → occ w' cid = 0) ∧
    w'.nextConn = w.nextConn ∧
    w'.sigs.map Sig.id = w.sigs.map Sig.id ++ [w.nextSig] ∧
    w'.nextSig = w.nextSig + 1 := by
  by_cases hall : (((mapFind w.earlyConns n).getD []).filter
      (fun cid => connAlive w cid)).all
      (fun cid => connShape w cid = shape) = true
  · have heq := hubAddSignal_eq w shape n hall
    rw [heq] at h
    simp only [Option.some.injEq, Prod.mk.injEq] at h
    obtain ⟨hw', hsid⟩ := h
    subst hw'
    refine ⟨(occ_addSignal_flat w _ _ n rfl rfl rfl
        (fun cid => List.Sublist.count_le
          (List.filter_sublist ((mapFind w.earlyConns n).getD [])) cid)).1,
      (occ_addSignal_flat w _ _ n rfl rfl rfl
        (fun cid => List.Sublist.count_le
          (List.filter_sublist ((mapFind w.earlyConns n).getD [])) cid)).2,
      rfl, ?_, rfl⟩
    show (w.sigs ++ [_]).map Sig.id = w.sigs.map Sig.id ++ [w.nextSig]
    rw [List.map_append]
    rfl
  · unfold hubAddSignal at h
    rw [if_neg hall] at h
    exact absurd h (by simp)

theorem sig_bound_of_ids (w w' : World)
    (hid : w'.sigs.map Sig.id = w.sigs.map Sig.id)
    (hns : w'.nextSig = w.nextSig) (h4 : ∀ s ∈ w.sigs, s.id < w.nextSig) :
    ∀ s ∈ w'.sigs, s.id < w'.nextSig := by
  intro s hs
  have hmem : s.id ∈ w'.sigs.map Sig.id := List.mem_map_of_mem Sig.id hs
  rw [hid] at hmem
  obtain ⟨s0, hs0, he⟩ := List.mem_map.mp hmem
  rw [hns, ← he]
  exact h4 s0 hs0

theorem Inv_of_mono (w w' : World) (hI : Inv w)
    (hocc : ∀ cid, occ w' cid ≤ occ w cid)
    (hids : w'.sigs.map Sig.id = w.sigs.map Sig.id)
    (hnc : w'.nextConn = w.nextConn) (hns : w'.nextSig = w.nextSig) : Inv w' := by
  obtain ⟨h1, h2, h3, h4⟩ := hI
  refine ⟨fun cid => Nat.le_trans (hocc cid) (h1 cid), fun cid hle => ?_, ?_,
    sig_bound_of_ids w w' hids hns h4⟩
  · have hz := h2 cid (by omega)
    have := hocc cid
    omega
  · rw [hids]
    exact h3

theorem occ_hubEmit (w : World) (shape : Nat) (n : SigName)
    (r : World × List Nat) (h : hubEmit w shape n = some r)
    (hnodup : (w.sigs.map Sig.id).Nodup) :
    (∀ cid, occ r.1 cid ≤ occ w cid) ∧
    r.1.sigs.map Sig.id = w.sigs.map Sig.id ∧
    r.1.nextConn = w.nextConn ∧ r.1.nextSig = w.nextSig := by
  unfold hubEmit at h
  cases hm : mapFind w.signalsMap n with
  | none =>
      rw [hm] at h
      simp only [Option.some.injEq] at h
      rw [← h]
      exact ⟨fun cid => Nat.le_refl _, rfl, rfl, rfl⟩
  | some sid =>
      rw [hm] at h
      simp only [] at h
      cases hs : findSig w sid with
      | none =>
          rw [hs] at h
          simp only [Option.some.injEq] at h
          rw [← h]
          exact ⟨fun cid => Nat.le_refl _, rfl, rfl, rfl⟩
      | some s =>
          rw [hs] at h
          simp only [] at h
          by_cases ha : s.alive = true
          · rw [if_pos ha] at h
            by_cases hsh : s.shape = shape
            · rw [if_pos hsh] at h
              simp only [Option.some.injEq] at h
              rw [← h]
              exact ⟨fun cid => occ_signalEmit w sid cid hnodup,
                (struct_signalEmit w sid).1, (struct_signalEmit w sid).2.1,
                (struct_signalEmit w sid).2.2⟩
            · rw [if_neg hsh] at h
              exact absurd h (by simp)
          · rw [if_neg ha] at h
            simp only [Option.some.injEq] at h
            rw [← h]
            exact ⟨fun cid => Nat.le_refl _, rfl, rfl, rfl⟩

/-- C9: the single-reference invariant.  In the empty hub every connection
identity is referenced by no live dispatch list and no parked list, and
every hub operation — Connect, AddSignal (migration included), Emit,
connection or signal release, enable toggles, teardown — preserves the
property that each connection identity is referenced in at most one place
among all live Signals' dispatch lists and all parked early-connection
lists, never both (together with freshness and uniqueness of identities). -/
theorem C9_single_reference_invariant :
    Inv emptyWorld ∧
    ∀ (op : Op) (w w' : World), Inv w → step op w = some w' → Inv w' := by
  constructor
  · refine ⟨fun cid => ?_, fun cid _ => rfl, List.nodup_nil,
      fun s hs => absurd hs (List.not_mem_nil s)⟩
    show (0 : Nat) ≤ 1
    omega
  · intro op w w' hI h
    obtain ⟨h1, h2, h3, h4⟩ := hI
    cases op with
    | connect sh n sl nm =>
        unfold step at h
        simp only [] at h
        cases hx : hubConnect w sh n sl nm with
        | none =>
            rw [hx] at h
            exact absurd h (by simp)
        | some r =>
            rw [hx] at h
            simp only [Option.map_some', Option.some.injEq] at h
            subst h
            obtain ⟨hne, hb, hnc, hids, hns⟩ :=
              occ_hubConnect w sh n sl nm r.1 r.2 (by rw [hx]) h3
            refine ⟨?_, ?_, ?_, sig_bound_of_ids w r.1 hids hns h4⟩
            · intro cid
              by_cases hc : cid = w.nextConn
              · subst hc
                have hz : occ w w.nextConn = 0 := h2 w.nextConn (Nat.le_refl _)
                omega
              · rw [hne cid hc]
                exact h1 cid
            · intro cid hle
              rw [hnc] at hle
              have hcne : cid ≠ w.nextConn := by omega
              rw [hne cid hcne]
              exact h2 cid (by omega)
            · rw [hids]
              exact h3
    | addSignal sh n =>
        unfold step at h
        simp only [] at h
        cases hx : hubAddSignal w sh n with
        | none =>
            rw [hx] at h
            exact absurd h (by simp)
        | some r =>
            rw [hx] at h
            simp only [Option.map_some', Option.some.injEq] at h
            subst h
            obtain ⟨hp1, hp2, hnc, hids, hns⟩ :=
              occ_hubAddSignal w sh n r.1 r.2 (by rw [hx])
            refine ⟨fun cid => hp1 cid (h1 cid), ?_, ?_, ?_⟩
            · intro cid hle
              rw [hnc] at hle
              exact hp2 cid (h2 cid hle)
            · rw [hids, List.nodup_append]
              refine ⟨h3, List.nodup_singleton _, ?_⟩
              intro a ha hb2
              rw [List.mem_singleton] at hb2
              subst hb2
              obtain ⟨s0, hs0, he⟩ := List.mem_map.mp ha
              have := h4 s0 hs0
              omega
            · intro s hs
              have hmem : s.id ∈ r.1.sigs.map Sig.id :=
                List.mem_map_of_mem Sig.id hs
              rw [hids] at hmem
              rw [hns]
              rcases List.mem_append.mp hmem with hmem | hmem
              · obtain ⟨s0, hs0, he⟩ := List.mem_map.mp hmem
                have := h4 s0 hs0
                omega
              · rw [List.mem_singleton] at hmem
                omega
    | emit sh n =>
        unfold step at h
        simp only [] at h
        cases hx : hubEmit w sh n with
        | none =>
            rw [hx] at h
            exact absurd h (by simp)
        | some r =>
            rw [hx] at h
            simp only [Option.map_some', Option.some.injEq] at h
            subst h
            obtain ⟨hocc, hids, hnc, hns⟩ := occ_hubEmit w sh n r hx h3
            exact Inv_of_mono w r.1 ⟨h1, h2, h3, h4⟩ hocc hids hnc hns
    | releaseC cid =>
        unfold step at h
        simp only [] at h
        simp only [Option.some.injEq] at h
        subst h
        exact Inv_of_mono w _ ⟨h1, h2, h3, h4⟩
          (fun c => occ_releaseConn w cid c)
          (struct_releaseConn w cid).1 (struct_releaseConn w cid).2.1
          (struct_releaseConn w cid).2.2
    | releaseS sid =>
        unfold step at h
        simp only [] at h
        simp only [Option.some.injEq] at h
        subst h
        exact Inv_of_mono w _ ⟨h1, h2, h3, h4⟩
          (fun c => occ_releaseSignal w sid c)
          (struct_releaseSignal w sid).1 (struct_releaseSignal w sid).2.1
          (struct_releaseSignal w sid).2.2
    | enableC cid b =>
        unfold step at h
        simp only [] at h
        simp only [Option.some.injEq] at h
        subst h
        exact Inv_of_mono w _ ⟨h1, h2, h3, h4⟩
          (fun c => Nat.le_of_eq (occ_connEnable w cid b c)) rfl rfl rfl
    | enableS sid b =>
        unfold step at h
        simp only [] at h
        simp only [Option.some.injEq] at h
        subst h
        exact Inv_of_mono w _ ⟨h1, h2, h3, h4⟩
          (fun c => Nat.le_of_eq (occ_sigEnable w sid b c))
          (sigIds_updateSig w sid (fun s => { s with enabled := b })
            (fun _ => rfl)) rfl rfl
    | teardown =>
        unfold step at h
        simp only [] at h
        simp only [Option.some.injEq] at h
        subst h
        exact Inv_of_mono w _ ⟨h1, h2, h3, h4⟩
          (fun c => occ_hubTeardown w c)
          (struct_hubTeardown w).1 (struct_hubTeardown w).2.1
          (struct_hubTeardown w).2.2

theorem C9_single_reference_invariant_witness :
    Inv ((step (Op.connect 0 "t" 5 "") emptyWorld).getD emptyWorld) := by
  have h : step (Op.connect 0 "t" 5 "") emptyWorld =
      some ((step (Op.connect 0 "t" 5 "") emptyWorld).getD emptyWorld) := rfl
  exact C9_single_reference_invariant.2 (Op.connect 0 "t" 5 "") emptyWorld
    ((step (Op.connect 0 "t" 5 "") emptyWorld).getD emptyWorld)
    C9_single_reference_invariant.1 h

end NamedSigslot
